import Mathlib

/-!
# Navigation builder (`build-nav.js`): embedding and verified properties

The script walks the `posts` directory, extracts a title per HTML document and
produces the navigation tree.  The development below embeds

* the string primitives the script uses (`trim`, `replace`, `startsWith`, ...),
* the two regular-expression searches of `getTitle` with their backtracking
  priorities (greedy `[^>]*`, lazy `.*?`, leftmost start),
* POSIX `path.join` / `path.parse(..).name`,
* `getTitle`, `scanDirectory`, `buildNavigation` and `countFiles`,

over a static snapshot of the file system, and then states and proves the
properties of the specification.  The module `path` is embedded in its POSIX
flavour, where `/` is the only separator and a name may hold a backslash.

A JavaScript string is modelled as the list of its UTF-16 code units, which is
what `String.prototype` methods, non-unicode regular expressions and the default
`Array.prototype.sort` comparison all operate on.
-/

namespace BuildNav

/-! ## Strings -/

/-- A JavaScript string: the sequence of its UTF-16 code units. -/
abbrev JsString := List Nat

/-- Code units of a string literal (used for ASCII literals only). -/
def js (s : String) : JsString := s.toList.map Char.toNat

/-- Code unit of `<`. -/
def cLT : Nat := 60
/-- Code unit of `>`. -/
def cGT : Nat := 62
/-- Code unit of `/`. -/
def cSlash : Nat := 47
/-- Code unit of the backslash. -/
def cBackslash : Nat := 92
/-- Code unit of `.`. -/
def cDot : Nat := 46
/-- Code unit of `#`. -/
def cHash : Nat := 35
/-- Code unit of `-`. -/
def cDash : Nat := 45
/-- Code unit of `_`. -/
def cUnderscore : Nat := 95
/-- Code unit of the space. -/
def cSpace : Nat := 32

/-- The code units `String.prototype.trim` removes: ECMAScript WhiteSpace and
LineTerminator (TAB, LF, VT, FF, CR, SP, NBSP, U+1680, U+2000..U+200A, U+2028,
U+2029, U+202F, U+205F, U+3000, U+FEFF). -/
def isWhiteSpace (c : Nat) : Bool :=
  c == 9 || c == 10 || c == 11 || c == 12 || c == 13 || c == 32 || c == 160 ||
  c == 5760 || (8192 ≤ c && c ≤ 8202) || c == 8232 || c == 8233 || c == 8239 ||
  c == 8287 || c == 12288 || c == 65279

/-- The method `s.trim()`. -/
def trim (s : JsString) : JsString :=
  ((s.dropWhile isWhiteSpace).reverse.dropWhile isWhiteSpace).reverse

/-- The method `s.startsWith(p)`. -/
def startsWith (s p : JsString) : Bool := p.isPrefixOf s

/-- The method `s.endsWith(p)`. -/
def endsWith (s p : JsString) : Bool := p.isSuffixOf s

/-- The method `s.includes(p)`: `p` occurs in `s` as a contiguous substring. -/
def includes : JsString → JsString → Bool
  | [], p => p.isPrefixOf []
  | c :: cs, p => p.isPrefixOf (c :: cs) || includes cs p

/-! ## Regular expressions

Only the constructs occurring in the script are embedded, each with the
priorities of the ECMAScript backtracking matcher.  A continuation receives the
input that is left and answers with the result of the rest of the pattern. -/

/-- ECMAScript `Canonicalize` (non-unicode `i` flag) on ASCII: lower-case letters
are mapped to upper case.  A code unit of 128 or more is never canonicalised to an
ASCII one, so against the ASCII patterns of the script it matches nothing, which
is also what leaving it unchanged gives. -/
def canonicalize (c : Nat) : Nat :=
  if 97 ≤ c ∧ c ≤ 122 then c - 32 else c

/-- One pattern character against one input code unit; `ci` is the `i` flag. -/
def charMatches (ci : Bool) (p c : Nat) : Bool :=
  if ci then canonicalize p == canonicalize c else p == c

/-- A sequence of pattern characters: answers with the input left after it. -/
def litMatch (ci : Bool) : JsString → JsString → Option JsString
  | [], s => some s
  | _ :: _, [] => none
  | p :: ps, c :: cs => if charMatches ci p c then litMatch ci ps cs else none

/-- The greedy star over a negated one-character class, `[^x]*`, followed by the
continuation `k`: the longest run is tried first, then shorter ones. -/
def starGreedyNot {α : Type} (x : Nat) (k : JsString → Option α) : JsString → Option α
  | [] => k []
  | c :: cs =>
    if c ≠ x then
      match starGreedyNot x k cs with
      | some r => some r
      | none => k (c :: cs)
    else k (c :: cs)

/-- The lazy capturing star `(.*?)` under the `s` flag followed by the
continuation `k`: the shortest capture is tried first.  `acc` is the capture so
far; the answer is the capture. -/
def starLazyAny (k : JsString → Bool) : JsString → JsString → Option JsString
  | acc, [] => if k [] then some acc else none
  | acc, c :: cs => if k (c :: cs) then some acc else starLazyAny k (acc ++ [c]) cs

/-- The pattern `<tag[^>]*>(.*?)<\/tag>` with flags `is`, anchored at the start of
the input; the answer is capture group 1. -/
def tagPatternAt (tag : JsString) (s : JsString) : Option JsString :=
  match litMatch true (cLT :: tag) s with
  | none => none
  | some s1 =>
    starGreedyNot cGT
      (fun s2 =>
        match litMatch true [cGT] s2 with
        | none => none
        | some s3 =>
          starLazyAny (fun s4 => (litMatch true (cLT :: cSlash :: tag ++ [cGT]) s4).isSome) [] s3)
      s1

/-- The call `content.match(/<tag[^>]*>(.*?)<\/tag>/is)`: the start positions are
tried from left to right; the answer is capture group 1 of the first match, and
`none` stands for `null`. -/
def tagSearch (tag : JsString) : JsString → Option JsString
  | [] => tagPatternAt tag []
  | c :: cs =>
    match tagPatternAt tag (c :: cs) with
    | some cap => some cap
    | none => tagSearch tag cs

/-- The pattern `<[^>]*>` anchored at the start of the input; the answer is the
input left after the match. -/
def markupAt : JsString → Option JsString
  | [] => none
  | c :: cs =>
    if c = cLT then starGreedyNot cGT (fun s => litMatch false [cGT] s) cs else none

/-- The loop of `s.replace(/<[^>]*>/g, '')`: at each position a match is dropped
and the scan resumes after it, otherwise the code unit is kept.  Every step
consumes at least one code unit, so `fuel = s.length` is never exhausted. -/
def stripTagsLoop : Nat → JsString → JsString
  | 0, s => s
  | _ + 1, [] => []
  | fuel + 1, c :: cs =>
    match markupAt (c :: cs) with
    | some rest => stripTagsLoop fuel rest
    | none => c :: stripTagsLoop fuel cs

/-- The call `s.replace(/<[^>]*>/g, '')`. -/
def stripTags (s : JsString) : JsString := stripTagsLoop s.length s

/-- The call `s.replace(/#/g, '')`. -/
def stripHashes (s : JsString) : JsString := s.filter (fun c => c != cHash)

/-- The call `s.replace(/[-_]/g, ' ')`. -/
def dashesToSpaces (s : JsString) : JsString :=
  s.map (fun c => if c = cDash ∨ c = cUnderscore then cSpace else c)

/-- The call `s.replace(/\\/g, '/')`. -/
def backslashesToSlashes (s : JsString) : JsString :=
  s.map (fun c => if c = cBackslash then cSlash else c)

/-! ## POSIX `path` -/

/-- The field `path.parse(p).base`: the last component of `p`, trailing
separators ignored. -/
def parseBase (p : JsString) : JsString :=
  ((p.reverse.dropWhile (fun c => c == cSlash)).takeWhile (fun c => c != cSlash)).reverse

/-- Whether the base of `p` is the first component of an absolute path: `p` starts
with `/` and nothing but the base and trailing separators follows.  This is when
the scan of `path.parse`, which for an absolute path stops before index 0, ends
with `startPart` still 0. -/
def baseUnderRoot (p : JsString) : Bool :=
  p.head? == some cSlash &&
    !((p.drop 1).reverse.dropWhile (fun c => c == cSlash)).contains cSlash

/-- The name `path.parse` takes from a base.  The extension starts at the last dot
of the base, unless the base has no dot, the last dot is its first character, or
the base is `..`; this last exception is tested as `startDot === startPart + 1`,
which for the first component of an absolute path compares with 1 while the base
starts at index 1, so there the base `..` is split into the name `.` and the
extension `.`. -/
def nameOfBase (base : JsString) (underRoot : Bool) : JsString :=
  let r := base.reverse
  if ¬ r.contains cDot then base
  else
    let stem := ((r.dropWhile (fun c => c != cDot)).drop 1).reverse
    if stem = [] then base
    else if base = [cDot, cDot] ∧ underRoot = false then base
    else stem

/-- The field `path.parse(p).name`: the base without its extension. -/
def parseName (p : JsString) : JsString :=
  nameOfBase (parseBase p) (baseUnderRoot p)

/-- One step of `normalizeString` on a path segment; `stack` holds the segments
kept so far, last one first. -/
def normalizeStep (allowAboveRoot : Bool) (stack : List JsString) (seg : JsString) :
    List JsString :=
  if seg = [] ∨ seg = [cDot] then stack
  else if seg = [cDot, cDot] then
    match stack with
    | top :: below =>
      if top = [cDot, cDot] then (if allowAboveRoot then seg :: stack else stack)
      else below
    | [] => if allowAboveRoot then [seg] else []
  else seg :: stack

/-- The function `path.normalize(p)`. -/
def pathNormalize (p : JsString) : JsString :=
  if p = [] then [cDot]
  else
    let isAbsolute := p.head? = some cSlash
    let trailingSeparator := p.getLast? = some cSlash
    let kept := ((p.splitOn cSlash).foldl (normalizeStep (!isAbsolute)) []).reverse
    let q := [cSlash].intercalate kept
    if q = [] then
      (if isAbsolute then [cSlash] else if trailingSeparator then [cDot, cSlash] else [cDot])
    else
      let q1 := if trailingSeparator then q ++ [cSlash] else q
      if isAbsolute then cSlash :: q1 else q1

/-- The function `path.join(a, b)`. -/
def pathJoin (a b : JsString) : JsString :=
  if a = [] ∧ b = [] then [cDot]
  else if a = [] then pathNormalize b
  else if b = [] then pathNormalize a
  else pathNormalize (a ++ cSlash :: b)

/-! ## `getTitle` -/

/-- The function `getTitle(content, filename)`. -/
def getTitle (content filename : JsString) : JsString :=
  match tagSearch (js "title") content with
  | some inner => trim (stripTags inner)
  | none =>
    match tagSearch (js "h1") content with
    | some inner => trim (stripHashes (stripTags inner))
    | none => dashesToSpaces (parseName filename)

/-! ## The file system and the navigation tree -/

/-- What the script can observe of a path of the content tree.  A snapshot: the
file system does not change while the script runs. -/
inductive FsNode where
  /-- The call `lstatSync` throws (and `existsSync` answers `false`). -/
  | absent : FsNode
  /-- A symbolic link. -/
  | symlink : FsNode
  /-- Neither a regular file, a directory nor a symbolic link (socket, FIFO, device). -/
  | special : FsNode
  /-- A regular file; `none` when `readFileSync` throws. -/
  | file (content : Option JsString) : FsNode
  /-- A directory: the names `readdirSync` returns, in the order it returns them
  (`none` when it throws), and the node behind each name. -/
  | dir (listing : Option (List JsString)) (child : JsString → FsNode) : FsNode

/-- An entry of the navigation tree: a folder or a document. -/
inductive Entry where
  /-- The object with `type: 'folder'`. -/
  | folder (name path : JsString) (children : List Entry) : Entry
  /-- The object with `type: 'file'`. -/
  | file (name path title : JsString) (hidden : Bool) : Entry

/-- The field `name`. -/
def Entry.name : Entry → JsString
  | .folder n _ _ => n
  | .file n _ _ _ => n

/-- The field `path`. -/
def Entry.path : Entry → JsString
  | .folder _ p _ => p
  | .file _ p _ _ => p

/-- The field `children` (absent on a document: the empty list). -/
def Entry.children : Entry → List Entry
  | .folder _ _ ch => ch
  | .file _ _ _ _ => []

/-- Whether the entry has `type: 'file'`. -/
def Entry.isFile : Entry → Bool
  | .folder _ _ _ => false
  | .file _ _ _ _ => true

/-- The constant `IGNORED_FILES`. -/
def IGNORED_FILES : List JsString :=
  [js ".", js "..", js "manifest.json", js "search_index.json", js "index.html",
   js ".DS_Store", js ".gitignore"]

/-- The constant `HIDDEN_FROM_NAV`. -/
def HIDDEN_FROM_NAV : List JsString :=
  [js "privacy.html", js "tos.html", js "contact.html", js "donate.html"]

/-- The call `files.sort()`: ascending in the default comparison, which on strings
is the lexicographic order of the code units. -/
def sortNames (files : List JsString) : List JsString :=
  files.insertionSort (fun a b => a ≤ b)

/-- The two `continue` guards at the head of the loop body of `scanDirectory`. -/
def skipped (file : JsString) : Bool :=
  IGNORED_FILES.contains file || (startsWith file (js ".") || includes file (js ".."))

/-- The rest of the loop body of `scanDirectory` for one `file`, after the guards:
`node` is what `fullPath` refers to, `relPath` is `path.join(relativePath, file)`
and `children` is the result of the recursive call on `fullPath`.  The answer is
the item pushed, or `none` when the iteration pushes nothing. -/
def scanItem (file relPath : JsString) (node : FsNode) (children : List Entry) :
    Option Entry :=
  match node with
  | .absent => none
  | .symlink => none
  | .dir _ _ => some (.folder file (backslashesToSlashes relPath) children)
  | .file content =>
    if endsWith file (js ".html") then
      match content with
      | none => none
      | some text =>
        some (.file file (backslashesToSlashes relPath) (getTitle text file)
          (HIDDEN_FROM_NAV.contains file))
    else none
  | .special => none

/-- The function `scanDirectory(dirPath, relativePath)`, where the first argument
is the node `dirPath` refers to and `child file` is the node `path.join(dirPath,
file)` refers to.  Anything but a directory that can be listed gives the empty
list: `existsSync` answers `false` or `readdirSync` throws (both follow symbolic
links, so a link in the first argument stands for one that leads to no directory).
The loop pushes at most one item per file, in the order of the sorted listing. -/
def scanDirectory : FsNode → JsString → List Entry
  | .dir (some files) child, relativePath =>
    (sortNames files).filterMap fun file =>
      if skipped file then none
      else
        scanItem file (pathJoin relativePath file) (child file)
          (scanDirectory (child file) (pathJoin relativePath file))
  | _, _ => []

/-- The call `fs.existsSync(p)` on the node `p` refers to. -/
def existsSync : FsNode → Bool
  | .absent => false
  | _ => true

/-- The value of `navigation.posts` at the end of `buildNavigation()`, where
`postsDir` is the node `POSTS_DIR` refers to. -/
def buildNavigation (postsDir : FsNode) : List Entry :=
  if existsSync postsDir then scanDirectory postsDir (js "posts") else []

mutual
/-- The contribution of one `item` to the count in `countFiles`. -/
def countItem : Entry → Nat
  | .file _ _ _ _ => 1
  | .folder _ _ children => countFiles children
/-- The function `countFiles(items)`. -/
def countFiles : List Entry → Nat
  | [] => 0
  | item :: rest => countItem item + countFiles rest
end

/-! ## Notions used to state the properties -/

mutual
/-- An entry together with every entry below it. -/
def withDescendants : Entry → List Entry
  | .file n p t h => [.file n p t h]
  | .folder n p children => .folder n p children :: allEntries children
/-- Every entry of a tree, at any depth, parents before their children. -/
def allEntries : List Entry → List Entry
  | [] => []
  | item :: rest => withDescendants item ++ allEntries rest
end

/-- Two snapshots that differ only in the order in which directories are listed. -/
inductive SameUpToListingOrder : FsNode → FsNode → Prop where
  | same (t : FsNode) : SameUpToListingOrder t t
  | dir {l₁ l₂ : List JsString} {c₁ c₂ : JsString → FsNode} :
      l₁.Perm l₂ → (∀ n, n ∈ l₁ → SameUpToListingOrder (c₁ n) (c₂ n)) →
      SameUpToListingOrder (.dir (some l₁) c₁) (.dir (some l₂) c₂)

/-- A level of a tree in ascending order of `name`. -/
def SortedByName (items : List Entry) : Prop :=
  (items.map Entry.name).Sorted (fun a b => a ≤ b)

/-- Every level of a tree is in ascending order of `name`: the top-level list and
the `children` of every folder. -/
def SortedAtEveryLevel (items : List Entry) : Prop :=
  SortedByName items ∧ ∀ e ∈ allEntries items, SortedByName e.children

/-- The directory `d` belongs to the tree under `t`: it is `t` itself or is reached
from it through names that the directories on the way list. -/
inductive InTree : FsNode → FsNode → Prop where
  | here (t : FsNode) : InTree t t
  | deeper {files : List JsString} {child : JsString → FsNode} {file : JsString} {d : FsNode} :
      file ∈ files → InTree (child file) d → InTree (.dir (some files) child) d

/-- The conditions under which the child `file` of a directory is kept: the name is
not ignored, is no dotfile, has no `..`, `lstatSync` succeeds, the child is no
symbolic link, and it is a directory or a readable regular file named `*.html`. -/
def Eligible (child : JsString → FsNode) (file : JsString) : Prop :=
  file ∉ IGNORED_FILES ∧ startsWith file (js ".") = false ∧ includes file (js "..") = false ∧
  child file ≠ .absent ∧ child file ≠ .symlink ∧
  ((∃ listing c, child file = .dir listing c) ∨
   (endsWith file (js ".html") = true ∧ ∃ text, child file = .file (some text)))

/-- The entry a kept child is emitted as: a folder for a directory (with the scan of
the directory as `children`), a document for a regular file. -/
def EmittedAs (child : JsString → FsNode) (relativePath file : JsString) (e : Entry) : Prop :=
  ((∃ listing c, child file = .dir listing c) ∧
    e = .folder file (backslashesToSlashes (pathJoin relativePath file))
          (scanDirectory (child file) (pathJoin relativePath file))) ∨
  (∃ text, child file = .file (some text) ∧
    e = .file file (backslashesToSlashes (pathJoin relativePath file)) (getTitle text file)
          (HIDDEN_FROM_NAV.contains file))

/-- A path segment that `path.normalize` keeps as it is: not empty, without `/`, and
neither `.` nor `..`. -/
def GoodSegment (s : JsString) : Prop :=
  s ≠ [] ∧ cSlash ∉ s ∧ s ≠ [cDot] ∧ s ≠ [cDot, cDot]

/-- A relative path in normal form: good segments joined by `/`. -/
def NormalRelPath (p : JsString) : Prop :=
  ∃ segs : List JsString, segs ≠ [] ∧ (∀ s ∈ segs, GoodSegment s) ∧ p = [cSlash].intercalate segs

/-- A name as a directory can hold it: not empty and without `/`. -/
def IsBasename (n : JsString) : Prop := n ≠ [] ∧ cSlash ∉ n

/-- A name as a directory can hold it, without a backslash. -/
def PlainName (n : JsString) : Prop := IsBasename n ∧ cBackslash ∉ n

/-- Every name listed by a directory of the tree under `t` satisfies `P`. -/
def AllListedNames (P : JsString → Prop) (t : FsNode) : Prop :=
  ∀ files child, InTree t (.dir (some files) child) → ∀ n, n ∈ files → P n

/-- No directory of the tree under `t` lists a name twice. -/
def SiblingsDistinct (t : FsNode) : Prop :=
  ∀ files child, InTree t (.dir (some files) child) → files.Nodup

/-- The invariant of the recursion of `scanDirectory` used for the uniqueness of
paths: plain names, distinct siblings, and a relative path in normal form without
backslash. -/
def PlainInv (t : FsNode) (rel : JsString) : Prop :=
  AllListedNames PlainName t ∧ SiblingsDistinct t ∧ NormalRelPath rel ∧ cBackslash ∉ rel

/-- The `path` of every entry of a tree, at any depth. -/
def allPaths (items : List Entry) : List JsString := (allEntries items).map Entry.path

/-- The code unit `c` is the pattern character `p` up to the case of ASCII letters,
for a pattern character that is no upper-case letter: `c` is `p` or, when `p` is a
lower-case letter, its upper-case form. -/
def EqIgnoringCase (p c : Nat) : Prop := c = p ∨ (97 ≤ p ∧ p ≤ 122 ∧ c + 32 = p)

/-- The text `m` is the pattern `p` up to the case of ASCII letters. -/
def SameIgnoringCase (p m : JsString) : Prop := List.Forall₂ EqIgnoringCase p m

/-- A pattern without upper-case ASCII letters. -/
def LowerPattern (p : JsString) : Prop := ∀ c, c ∈ p → c < 65 ∨ 90 < c

/-- The input `s` starts with an element `<tag attrs>inner</tag>`, followed by `post`:
the opening and closing tags are matched up to case and `attrs` holds no `>`. -/
def ElementAtStart (tag s attrs inner post : JsString) : Prop :=
  ∃ opening closing, s = opening ++ (attrs ++ cGT :: (inner ++ (closing ++ post))) ∧
    SameIgnoringCase (cLT :: tag) opening ∧ cGT ∉ attrs ∧
    SameIgnoringCase (cLT :: cSlash :: tag ++ [cGT]) closing

/-- The input `s` holds an element `<tag attrs>inner</tag>` right after `pre`. -/
def ElementAt (tag s pre attrs inner post : JsString) : Prop :=
  ∃ rest, s = pre ++ rest ∧ ElementAtStart tag rest attrs inner post

/-- The interior `inner` of the first `tag` element of `s`: no element starts
further left and, of the elements starting there, none has a shorter interior (the
closing tag is the nearest one). -/
def FirstElement (tag s inner : JsString) : Prop :=
  ∃ pre attrs post, ElementAt tag s pre attrs inner post ∧
    ∀ pre' attrs' inner' post', ElementAt tag s pre' attrs' inner' post' →
      pre.length ≤ pre'.length ∧ (pre'.length = pre.length → inner.length ≤ inner'.length)

/-- The part of `stem` after its last `/` (all of it when it has none). -/
def lastSegment (stem : JsString) : JsString :=
  (stem.reverse.takeWhile (fun c => c != cSlash)).reverse

/-- The text `t` is `s` without the white space at its two ends: `s` is `t` between
two runs of white space, and `t` neither starts nor ends with white space. -/
def IsTrimOf (s t : JsString) : Prop :=
  (∃ l r, s = l ++ (t ++ r) ∧ (∀ c, c ∈ l → isWhiteSpace c = true) ∧
    (∀ c, c ∈ r → isWhiteSpace c = true)) ∧
  (∀ c, t.head? = some c → isWhiteSpace c = false) ∧
  (∀ c, t.getLast? = some c → isWhiteSpace c = false)

/-- No `<` of `t` is followed, anywhere further on, by a `>`: no substring `<...>`. -/
def NoMarkup (t : JsString) : Prop := ∀ a rest, t = a ++ cLT :: rest → cGT ∉ rest

/-- The text `out` is `s` with every `<...>` tag removed: `s` is a text without `<`,
a tag running from a `<` to the next `>`, and so on up to a last text without
`<...>`, and `out` is these texts in a row. -/
inductive StripsTo : JsString → JsString → Prop where
  | text (t : JsString) : NoMarkup t → StripsTo t t
  | tag (t attrs r out : JsString) : cLT ∉ t → cGT ∉ attrs → StripsTo r out →
      StripsTo (t ++ cLT :: (attrs ++ cGT :: r)) (t ++ out)

/-- The last component `base` of the path `p`, standing after `dir`: only
separators follow it, it is not empty and holds no separator, and `dir` is empty
or ends with a separator. -/
def IsLastComponent (p dir base : JsString) : Prop :=
  ∃ trail, p = dir ++ (base ++ trail) ∧ (∀ c, c ∈ trail → c = cSlash) ∧
    base ≠ [] ∧ cSlash ∉ base ∧ (dir = [] ∨ dir.getLast? = some cSlash)

/-- The extension `ext` that `path.parse` reports for the base `base` standing after
`dir`.  It is empty when the base has no dot, when its only dot is its first
character, and for the base `..` (except right after the root `/`); otherwise it
runs from the last dot of the base to its end. -/
def IsExtensionOf (dir base ext : JsString) : Prop :=
  (ext = [] ∧ (cDot ∉ base ∨ (∃ e, base = cDot :: e ∧ cDot ∉ e) ∨
    (base = [cDot, cDot] ∧ dir ≠ [cSlash]))) ∨
  (∃ n e, base = n ++ cDot :: e ∧ n ≠ [] ∧ cDot ∉ e ∧ ext = cDot :: e ∧
    ¬ (base = [cDot, cDot] ∧ dir ≠ [cSlash]))

/-- The base name without its extension of the path `p`: the last component of `p`
is `name` followed by its extension; it is empty when `p` has no component. -/
def IsNameOf (p name : JsString) : Prop :=
  (name = [] ∧ ∀ c, c ∈ p → c = cSlash) ∨
  ∃ dir base ext, IsLastComponent p dir base ∧ IsExtensionOf dir base ext ∧
    base = name ++ ext

/-! ## Example inputs -/

/-- The content `<title>Hello</title><h1>Other</h1>`. -/
def helloContent : JsString := js "<title>Hello</title><h1>Other</h1>"

/-- The content `<h1># My Post</h1>`. -/
def myPostContent : JsString := js "<h1># My Post</h1>"

/-- The interior of the `<title>` element of `richTitleContent`: a line break,
`  He<b>ll</b>o <i`, a line break and `>World</I> `. -/
def richTitleInner : JsString :=
  10 :: (js "  He<b>ll</b>o <i" ++ 10 :: js ">World</I> ")

/-- The content `<TITLE lang=en>`, the interior `richTitleInner`, `</tItLe>` and
`<h1>Other</h1>`. -/
def richTitleContent : JsString :=
  js "<TITLE lang=en>" ++ (richTitleInner ++ (js "</tItLe>" ++ js "<h1>Other</h1>"))

/-- A `<title>` element whose interior is the word `T` between code units that
`trim` removes (before it every one of them: TAB, LF, VT, FF, CR, SP, NBSP, U+1680,
U+2000 to U+200A, U+2028, U+2029, U+202F, U+205F, U+3000, U+FEFF; after it SP and
LF) and, next to the word, code units that it keeps (U+1FFF, U+200B and U+0085
before it, U+180E after it). -/
def spacedTitleContent : JsString :=
  js "<title>" ++
    ([9, 10, 11, 12, 13, 32, 160, 5760, 8192, 8193, 8194, 8195, 8196, 8197, 8198, 8199, 8200,
      8201, 8202, 8232, 8233, 8239, 8287, 12288, 65279] ++
    (8191 :: 8203 :: 133 :: js "T" ++ (6158 :: 32 :: 10 :: js "</title>")))

/-- The interior of the `<h1>` element of `richHeadingContent`:
`## My <em>Post</em> #` and a line break. -/
def richHeadingInner : JsString := js "## My <em>Post</em> #" ++ [10]

/-- The content `<p>intro</p><H1 id=top>`, the interior `richHeadingInner` and
`</h1>`. -/
def richHeadingContent : JsString :=
  js "<p>intro</p>" ++ (js "<H1 id=top>" ++ (richHeadingInner ++ js "</h1>"))

/-- A content root whose listing is returned in two different orders. -/
def shuffledChild (n : JsString) : FsNode :=
  if n = js "b.html" then .file (some (js "<title>B</title>"))
  else if n = js "a" then
    .dir (some [js "z.html", js "y.html"]) (fun _ => .file (some (js "<h1>#x</h1>")))
  else .absent

/-- The content root of `shuffledChild`, listed as `b.html`, `a`. -/
def shuffledTreeA : FsNode := .dir (some [js "b.html", js "a"]) shuffledChild

/-- The content root of `shuffledChild`, listed as `a`, `b.html`. -/
def shuffledTreeB : FsNode := .dir (some [js "a", js "b.html"]) shuffledChild

/-- The children of a content root with a directory `drafts` that cannot be listed
next to a document `about.html`. -/
def unreadableChild (n : JsString) : FsNode :=
  if n = js "drafts" then .dir none (fun _ => .absent)
  else if n = js "about.html" then .file (some (js "<title>About</title>"))
  else .absent

/-- A content root with an unlistable directory `drafts` and a document. -/
def unreadableTree : FsNode := .dir (some [js "drafts", js "about.html"]) unreadableChild

/-- A content root holding the single document `a.html`. -/
def flatTree : FsNode := .dir (some [js "a.html"]) (fun _ => .file (some []))

/-- The name `x\y.html`, which a POSIX directory can hold. -/
def backslashName : JsString := js "x" ++ cBackslash :: js "y.html"

/-- A content root holding the single document `x\y.html`. -/
def backslashTree : FsNode := .dir (some [backslashName]) (fun _ => .file (some []))

/-- The children of a content root with a directory `a` holding `b.html`, next to a
document named `a\b.html`. -/
def collidingChild (n : JsString) : FsNode :=
  if n = js "a" then .dir (some [js "b.html"]) (fun _ => .file (some []))
  else .file (some [])

/-- A content root with the directory `a` (holding `b.html`) and the document
`a\b.html`. -/
def collidingTree : FsNode :=
  .dir (some [js "a", js "a" ++ cBackslash :: js "b.html"]) collidingChild

/-- A content root holding the document `a.html` with an empty `<title>` element. -/
def emptyTitleTree : FsNode :=
  .dir (some [js "a.html"]) (fun _ => .file (some (js "<title></title><h1>Heading</h1>")))

end BuildNav

/-! ## Properties -/

namespace BuildNav

/-! ### Counting -/

mutual
theorem countItem_eq_countP (e : Entry) :
    countItem e = (withDescendants e).countP Entry.isFile := by
  cases e with
  | file n p t h => simp [countItem, withDescendants, Entry.isFile]
  | folder n p ch =>
    simp [countItem, withDescendants, Entry.isFile, countFiles_eq_countP ch]
theorem countFiles_eq_countP (items : List Entry) :
    countFiles items = (allEntries items).countP Entry.isFile := by
  cases items with
  | nil => simp [countFiles, allEntries]
  | cons e rest =>
    simp [countFiles, allEntries, countItem_eq_countP e, countFiles_eq_countP rest]
end

/-- C9: `countFiles` returns the number of `type: 'file'` entries reachable from
the list at any depth; a folder adds only what its `children` add (nothing of its
own), and the count of the empty list is 0. -/
theorem countFiles_counts_documents :
    (∀ items : List Entry, countFiles items = ((allEntries items).filter Entry.isFile).length) ∧
    (∀ (n p : JsString) (children rest : List Entry),
      countFiles (.folder n p children :: rest) = countFiles children + countFiles rest) ∧
    (∀ (n p t : JsString) (h : Bool) (rest : List Entry),
      countFiles (.file n p t h :: rest) = 1 + countFiles rest) ∧
    countFiles [] = 0 := by
  refine ⟨fun items => ?_, fun n p ch rest => ?_, fun n p t h rest => ?_, ?_⟩
  · rw [countFiles_eq_countP, List.countP_eq_length_filter]
  · simp [countFiles, countItem]
  · simp [countFiles, countItem]
  · simp [countFiles]

/-! ### Order of the entries -/

theorem skippedOrItem_name {file relPath : JsString} {node : FsNode} {children : List Entry}
    {e : Entry} (h : scanItem file relPath node children = some e) : e.name = file := by
  unfold scanItem at h
  split at h
  · cases h
  · cases h
  · cases h; rfl
  · split at h
    · split at h
      · cases h
      · cases h; rfl
    · cases h
  · cases h

theorem filterMap_names_sublist (f : JsString → Option Entry)
    (hf : ∀ x e, f x = some e → e.name = x) (l : List JsString) :
    ((l.filterMap f).map Entry.name).Sublist l := by
  induction l with
  | nil => simp
  | cons x xs ih =>
    rw [List.filterMap_cons]
    cases hx : f x with
    | none => exact ih.trans (List.sublist_cons_self x xs)
    | some e =>
      simp only [List.map_cons]
      rw [hf x e hx]
      exact ih.cons₂ x

theorem scanDirectory_dir (files : List JsString) (child : JsString → FsNode)
    (relativePath : JsString) :
    scanDirectory (.dir (some files) child) relativePath =
      (sortNames files).filterMap fun file =>
        if skipped file then none
        else
          scanItem file (pathJoin relativePath file) (child file)
            (scanDirectory (child file) (pathJoin relativePath file)) := by
  rw [scanDirectory]

theorem scanDirectory_names_sublist (files : List JsString) (child : JsString → FsNode)
    (relativePath : JsString) :
    ((scanDirectory (.dir (some files) child) relativePath).map Entry.name).Sublist
      (sortNames files) := by
  rw [scanDirectory_dir]
  apply filterMap_names_sublist
  intro x e h
  split at h
  · cases h
  · exact skippedOrItem_name h

theorem sortNames_sorted (files : List JsString) :
    (sortNames files).Sorted (fun a b => a ≤ b) :=
  List.sorted_insertionSort _ files

theorem sortNames_perm (files : List JsString) : (sortNames files).Perm files :=
  List.perm_insertionSort _ files

theorem sortNames_eq_of_perm {l₁ l₂ : List JsString} (h : l₁.Perm l₂) :
    sortNames l₁ = sortNames l₂ :=
  List.eq_of_perm_of_sorted (r := fun a b => a ≤ b)
    ((sortNames_perm l₁).trans (h.trans (sortNames_perm l₂).symm))
    (sortNames_sorted l₁) (sortNames_sorted l₂)

theorem scanDirectory_sortedByName (t : FsNode) (relativePath : JsString) :
    SortedByName (scanDirectory t relativePath) := by
  cases t with
  | dir listing child =>
    cases listing with
    | none => simp [scanDirectory, SortedByName]
    | some files =>
      exact (sortNames_sorted files).sublist (scanDirectory_names_sublist files child relativePath)
  | _ => simp [scanDirectory, SortedByName]

theorem mem_scanDirectory_dir {files : List JsString} {child : JsString → FsNode}
    {relativePath : JsString} {e : Entry} :
    e ∈ scanDirectory (.dir (some files) child) relativePath ↔
      ∃ file, file ∈ files ∧ skipped file = false ∧
        scanItem file (pathJoin relativePath file) (child file)
          (scanDirectory (child file) (pathJoin relativePath file)) = some e := by
  rw [scanDirectory_dir, List.mem_filterMap]
  constructor
  · rintro ⟨file, hmem, h⟩
    refine ⟨file, (sortNames_perm files).mem_iff.mp hmem, ?_⟩
    split at h
    · cases h
    · rename_i hs
      exact ⟨by simpa using hs, h⟩
  · rintro ⟨file, hmem, hs, h⟩
    exact ⟨file, (sortNames_perm files).mem_iff.mpr hmem, by simp [hs, h]⟩

theorem mem_scanDirectory_cases {t : FsNode} {relativePath : JsString} {e : Entry}
    (h : e ∈ scanDirectory t relativePath) :
    ∃ files child, t = .dir (some files) child ∧
      ∃ file, file ∈ files ∧ skipped file = false ∧
        scanItem file (pathJoin relativePath file) (child file)
          (scanDirectory (child file) (pathJoin relativePath file)) = some e := by
  cases t with
  | dir listing child =>
    cases listing with
    | none => simp [scanDirectory] at h
    | some files => exact ⟨files, child, rfl, mem_scanDirectory_dir.mp h⟩
  | _ => simp [scanDirectory] at h

theorem scanItem_children {file relPath : JsString} {node : FsNode} {children : List Entry}
    {e : Entry} (h : scanItem file relPath node children = some e) :
    e.children = children ∨ e.children = [] := by
  unfold scanItem at h
  split at h
  · cases h
  · cases h
  · cases h; exact Or.inl rfl
  · split at h
    · split at h
      · cases h
      · cases h; exact Or.inr rfl
    · cases h
  · cases h

theorem mem_allEntries {e : Entry} {items : List Entry} :
    e ∈ allEntries items ↔ ∃ top, top ∈ items ∧ e ∈ withDescendants top := by
  induction items with
  | nil => simp [allEntries]
  | cons x xs ih => simp [allEntries, ih]

theorem mem_withDescendants {e top : Entry} :
    e ∈ withDescendants top ↔ e = top ∨ e ∈ allEntries top.children := by
  cases top with
  | file n p t h => simp [withDescendants, Entry.children, allEntries]
  | folder n p ch => simp [withDescendants, Entry.children]

/-- Every entry of a scan result, at any depth, is a top-level entry of the scan of
some directory of the tree; a property of the directory and its relative path that
each loop iteration hands on to the recursive call holds there. -/
theorem allEntries_scanDirectory_inv (P : FsNode → JsString → Prop)
    (hstep : ∀ files child rel file, P (.dir (some files) child) rel → file ∈ files →
      skipped file = false → P (child file) (pathJoin rel file))
    {t : FsNode} {relativePath : JsString} {e : Entry} (hP : P t relativePath)
    (h : e ∈ allEntries (scanDirectory t relativePath)) :
    ∃ t' relativePath', InTree t t' ∧ P t' relativePath' ∧ e ∈ scanDirectory t' relativePath' := by
  induction t generalizing relativePath with
  | dir listing child ih =>
    obtain ⟨top, htop, hd⟩ := mem_allEntries.mp h
    rcases mem_withDescendants.mp hd with rfl | hbelow
    · exact ⟨_, _, InTree.here _, hP, htop⟩
    · obtain ⟨files, child', ht, file, hfile, hs, hitem⟩ := mem_scanDirectory_cases htop
      cases ht
      rcases scanItem_children hitem with hc | hc
      · rw [hc] at hbelow
        obtain ⟨t', rel', hin, hP', hmem⟩ := ih file (hstep _ _ _ _ hP hfile hs) hbelow
        exact ⟨t', rel', InTree.deeper hfile hin, hP', hmem⟩
      · rw [hc] at hbelow
        simp [allEntries] at hbelow
  | _ => simp [scanDirectory, allEntries] at h

theorem allEntries_scanDirectory {t : FsNode} {relativePath : JsString} {e : Entry}
    (h : e ∈ allEntries (scanDirectory t relativePath)) :
    ∃ t' relativePath', InTree t t' ∧ e ∈ scanDirectory t' relativePath' := by
  obtain ⟨t', rel', hin, -, hmem⟩ :=
    allEntries_scanDirectory_inv (fun _ _ => True) (fun _ _ _ _ _ _ _ => trivial) trivial h
  exact ⟨t', rel', hin, hmem⟩

theorem scanDirectory_sortedAtEveryLevel (t : FsNode) (relativePath : JsString) :
    SortedAtEveryLevel (scanDirectory t relativePath) := by
  refine ⟨scanDirectory_sortedByName t relativePath, fun e he => ?_⟩
  obtain ⟨t', rel', -, he'⟩ := allEntries_scanDirectory he
  obtain ⟨files, child, -, file, -, -, hitem⟩ := mem_scanDirectory_cases he'
  rcases scanItem_children hitem with hc | hc
  · rw [hc]; exact scanDirectory_sortedByName _ _
  · rw [hc]; simp [SortedByName]

theorem scanItem_congr {file relPath : JsString} {n₁ n₂ : FsNode} (children : List Entry)
    (h : SameUpToListingOrder n₁ n₂) :
    scanItem file relPath n₁ children = scanItem file relPath n₂ children := by
  cases h with
  | same => rfl
  | dir _ _ => rfl

theorem scanDirectory_eq_of_sameUpToListingOrder {t₁ t₂ : FsNode}
    (h : SameUpToListingOrder t₁ t₂) (relativePath : JsString) :
    scanDirectory t₁ relativePath = scanDirectory t₂ relativePath := by
  induction h generalizing relativePath with
  | same => rfl
  | @dir l₁ l₂ c₁ c₂ hperm hchild ih =>
    rw [scanDirectory_dir, scanDirectory_dir, sortNames_eq_of_perm hperm]
    apply List.filterMap_congr
    intro file hfile
    have hmem : file ∈ l₁ := hperm.mem_iff.mpr ((sortNames_perm l₂).mem_iff.mp hfile)
    by_cases hs : skipped file
    · simp [hs]
    · simp only [hs, Bool.false_eq_true, if_false]
      rw [ih file hmem, scanItem_congr _ (hchild file hmem)]

/-- C2: at every level of the result of `scanDirectory` (the top-level list and the
`children` of every folder) the entries are in ascending order of `name` under the
code-unit-wise string comparison, and two directory trees that differ only in the
order of their listings give the same result. -/
theorem scanDirectory_sorted_and_listing_order_independent
    (t₁ t₂ : FsNode) (relativePath : JsString) (h : SameUpToListingOrder t₁ t₂) :
    SortedAtEveryLevel (scanDirectory t₁ relativePath) ∧
    scanDirectory t₁ relativePath = scanDirectory t₂ relativePath :=
  ⟨scanDirectory_sortedAtEveryLevel t₁ relativePath,
   scanDirectory_eq_of_sameUpToListingOrder h relativePath⟩

/-! ### Which children are kept -/

theorem scanItem_eq_some_iff {file relPath : JsString} {node : FsNode} {children : List Entry}
    {e : Entry} :
    scanItem file relPath node children = some e ↔
      ((∃ listing c, node = .dir listing c) ∧
        e = .folder file (backslashesToSlashes relPath) children) ∨
      (endsWith file (js ".html") = true ∧ ∃ text, node = .file (some text) ∧
        e = .file file (backslashesToSlashes relPath) (getTitle text file)
              (HIDDEN_FROM_NAV.contains file)) := by
  cases node with
  | absent => simp [scanItem]
  | symlink => simp [scanItem]
  | special => simp [scanItem]
  | dir listing c =>
    constructor
    · intro h
      simp only [scanItem, Option.some.injEq] at h
      exact Or.inl ⟨⟨listing, c, rfl⟩, h.symm⟩
    · rintro (⟨-, rfl⟩ | ⟨-, text, hf, -⟩)
      · rfl
      · cases hf
  | file content =>
    cases content with
    | none =>
      constructor
      · intro h
        simp only [scanItem] at h
        split at h <;> cases h
      · rintro (⟨⟨l, c, hd⟩, -⟩ | ⟨-, text, hf, -⟩)
        · cases hd
        · cases hf
    | some text =>
      constructor
      · intro h
        simp only [scanItem] at h
        split at h
        · rename_i hx
          simp only [Option.some.injEq] at h
          exact Or.inr ⟨hx, text, rfl, h.symm⟩
        · cases h
      · rintro (⟨⟨l, c, hd⟩, -⟩ | ⟨hx, text', hf, rfl⟩)
        · cases hd
        · cases hf
          simp only [scanItem, hx, if_true]

theorem skipped_eq_false_iff {file : JsString} :
    skipped file = false ↔
      file ∉ IGNORED_FILES ∧ startsWith file (js ".") = false ∧
        includes file (js "..") = false := by
  simp [skipped, List.elem_eq_mem]

theorem mem_scanDirectory_iff {files : List JsString} {child : JsString → FsNode}
    {relativePath : JsString} {e : Entry} :
    e ∈ scanDirectory (.dir (some files) child) relativePath ↔
      ∃ file, file ∈ files ∧ Eligible child file ∧ EmittedAs child relativePath file e := by
  rw [mem_scanDirectory_dir]
  constructor
  · rintro ⟨file, hmem, hs, hitem⟩
    obtain ⟨h1, h2, h3⟩ := skipped_eq_false_iff.mp hs
    refine ⟨file, hmem, ?_⟩
    rcases scanItem_eq_some_iff.mp hitem with ⟨⟨l, c, hd⟩, he⟩ | ⟨hx, text, hf, he⟩
    · exact ⟨⟨h1, h2, h3, by simp [hd], by simp [hd], Or.inl ⟨l, c, hd⟩⟩, Or.inl ⟨⟨l, c, hd⟩, he⟩⟩
    · exact ⟨⟨h1, h2, h3, by simp [hf], by simp [hf], Or.inr ⟨hx, text, hf⟩⟩,
        Or.inr ⟨text, hf, he⟩⟩
  · rintro ⟨file, hmem, ⟨h1, h2, h3, -, -, hkind⟩, hem⟩
    refine ⟨file, hmem, skipped_eq_false_iff.mpr ⟨h1, h2, h3⟩, ?_⟩
    rw [scanItem_eq_some_iff]
    rcases hem with ⟨hd, he⟩ | ⟨text, hf, he⟩
    · exact Or.inl ⟨hd, he⟩
    · rcases hkind with ⟨l, c, hd⟩ | ⟨hx, -⟩
      · rw [hd] at hf; cases hf
      · exact Or.inr ⟨hx, text, hf, he⟩

theorem EmittedAs.name_eq {child : JsString → FsNode} {relativePath file : JsString}
    {e : Entry} (h : EmittedAs child relativePath file e) : e.name = file := by
  rcases h with ⟨-, rfl⟩ | ⟨text, -, rfl⟩ <;> rfl

theorem Eligible.emitted {child : JsString → FsNode} {file : JsString}
    (h : Eligible child file) (relativePath : JsString) :
    ∃ e, EmittedAs child relativePath file e := by
  obtain ⟨-, -, -, -, -, hd | ⟨-, text, hf⟩⟩ := h
  · exact ⟨_, Or.inl ⟨hd, rfl⟩⟩
  · exact ⟨_, Or.inr ⟨text, hf, rfl⟩⟩

/-- C4: a child of a listed directory appears in the output of `scanDirectory` iff
its name is not ignored, does not start with `.`, contains no `..`, its `lstat`
succeeds, it is no symbolic link, and it is a directory or a readable regular file
named `*.html`; a directory is emitted as a folder (whatever its scan gives) and a
file as a document; and every entry at any depth of the result is such a child of a
directory of the tree, so that no ignored name, dotfile, symbolic link or
non-`.html` regular file occurs in the tree. -/
theorem scanDirectory_keeps_exactly_eligible
    (files : List JsString) (child : JsString → FsNode) (relativePath : JsString) :
    (∀ file, (∃ e, e ∈ scanDirectory (.dir (some files) child) relativePath ∧ e.name = file) ↔
      (file ∈ files ∧ Eligible child file)) ∧
    (∀ e, e ∈ scanDirectory (.dir (some files) child) relativePath ↔
      ∃ file, file ∈ files ∧ Eligible child file ∧ EmittedAs child relativePath file e) ∧
    (∀ e, e ∈ allEntries (scanDirectory (.dir (some files) child) relativePath) →
      ∃ files' child' relativePath',
        InTree (.dir (some files) child) (.dir (some files') child') ∧
        e.name ∈ files' ∧ Eligible child' e.name ∧ EmittedAs child' relativePath' e.name e) := by
  refine ⟨fun file => ⟨?_, ?_⟩, fun e => mem_scanDirectory_iff, fun e he => ?_⟩
  · rintro ⟨e, he, hname⟩
    obtain ⟨file', hmem, helig, hem⟩ := mem_scanDirectory_iff.mp he
    rw [hem.name_eq] at hname
    subst hname
    exact ⟨hmem, helig⟩
  · rintro ⟨hmem, helig⟩
    obtain ⟨e, hem⟩ := helig.emitted relativePath
    exact ⟨e, mem_scanDirectory_iff.mpr ⟨file, hmem, helig, hem⟩, hem.name_eq⟩
  · obtain ⟨t', rel', hin, hmem⟩ := allEntries_scanDirectory he
    obtain ⟨files', child', rfl, -⟩ := mem_scanDirectory_cases hmem
    obtain ⟨file, hfile, helig, hem⟩ := mem_scanDirectory_iff.mp hmem
    have hn := hem.name_eq
    subst hn
    exact ⟨files', child', rel', hin, hfile, helig, hem⟩

theorem shuffledTrees_sameUpToListingOrder : SameUpToListingOrder shuffledTreeA shuffledTreeB :=
  SameUpToListingOrder.dir (List.Perm.swap _ _ _) (fun _ _ => SameUpToListingOrder.same _)

/-- C2, at two listings of one directory in different orders: both give the same
sorted result. -/
theorem scanDirectory_sorted_and_listing_order_independent_witness :
    SameUpToListingOrder shuffledTreeA shuffledTreeB ∧
    SortedAtEveryLevel (scanDirectory shuffledTreeA (js "posts")) ∧
    scanDirectory shuffledTreeA (js "posts") = scanDirectory shuffledTreeB (js "posts") :=
  ⟨shuffledTrees_sameUpToListingOrder,
   scanDirectory_sorted_and_listing_order_independent shuffledTreeA shuffledTreeB (js "posts")
     shuffledTrees_sameUpToListingOrder⟩

/-! ### A subdirectory that cannot be listed -/

theorem filter_filterMap_congr {p : Entry → Bool} {f g : JsString → Option Entry}
    (l : List JsString) (h : ∀ x, x ∈ l → (f x).filter p = (g x).filter p) :
    (l.filterMap f).filter p = (l.filterMap g).filter p := by
  induction l with
  | nil => rfl
  | cons x xs ih =>
    have hx := h x (List.mem_cons_self x xs)
    have ih' := ih (fun y hy => h y (List.mem_cons_of_mem x hy))
    rw [List.filterMap_cons, List.filterMap_cons]
    cases hf : f x with
    | none =>
      cases hg : g x with
      | none => exact ih'
      | some b =>
        rw [hf, hg] at hx
        simp only [Option.filter] at hx
        split at hx
        · cases hx
        · rename_i hb
          simp only [List.filter_cons, hb, ih']
          rfl
    | some a =>
      cases hg : g x with
      | none =>
        rw [hf, hg] at hx
        simp only [Option.filter] at hx
        split at hx
        · cases hx
        · rename_i ha
          simp only [List.filter_cons, ha, ih']
          rfl
      | some b =>
        rw [hf, hg] at hx
        simp only [Option.filter] at hx
        by_cases ha : p a = true
        · by_cases hb : p b = true
          · simp only [ha, hb, if_true, Option.some.injEq] at hx
            subst hx
            simp only [List.filter_cons, ha, if_true, ih']
          · simp [ha, hb] at hx
        · by_cases hb : p b = true
          · simp [ha, hb] at hx
          · simp only [List.filter_cons, ha, hb, ih']
            rfl

theorem scanDirectory_unlistable (c : JsString → FsNode) (relativePath : JsString) :
    scanDirectory (.dir none c) relativePath = [] := by
  rw [scanDirectory]
  intro files child hEq
  cases hEq

theorem scanDirectory_emptyListing (c : JsString → FsNode) (relativePath : JsString) :
    scanDirectory (.dir (some []) c) relativePath = [] := by
  rw [scanDirectory_dir]; rfl

/-- C8 (amended): when listing a subdirectory `sub` fails, the scan of its parent
still returns a result, identical to the one obtained if `sub` were an empty
directory: `sub` is not omitted but, when its name passes the filters, emitted as a
folder with no children; and the other entries are exactly those obtained when
`sub` lists successfully, whatever it lists. -/
theorem scanDirectory_unlistable_subdirectory
    (files : List JsString) (child : JsString → FsNode) (relativePath sub : JsString)
    (c : JsString → FsNode) (h : child sub = .dir none c) :
    scanDirectory (.dir (some files) child) relativePath =
      scanDirectory (.dir (some files) (Function.update child sub (.dir (some []) c)))
        relativePath ∧
    (sub ∈ files → skipped sub = false →
      Entry.folder sub (backslashesToSlashes (pathJoin relativePath sub)) [] ∈
        scanDirectory (.dir (some files) child) relativePath) ∧
    (∀ (listing : List JsString) (c' : JsString → FsNode),
      (scanDirectory (.dir (some files) child) relativePath).filter
          (fun e => decide (e.name ≠ sub)) =
        (scanDirectory (.dir (some files) (Function.update child sub (.dir (some listing) c')))
          relativePath).filter (fun e => decide (e.name ≠ sub))) := by
  refine ⟨?_, ?_, ?_⟩
  · rw [scanDirectory_dir, scanDirectory_dir]
    apply List.filterMap_congr
    intro file _
    by_cases hs : skipped file
    · simp [hs]
    · simp only [hs, Bool.false_eq_true, if_false]
      by_cases hfile : file = sub
      · subst hfile
        rw [Function.update_same, h, scanDirectory_unlistable, scanDirectory_emptyListing]
        rfl
      · rw [Function.update_noteq hfile]
  · intro hmem hs
    rw [mem_scanDirectory_dir]
    refine ⟨sub, hmem, hs, ?_⟩
    rw [h, scanDirectory_unlistable]
    rfl
  · intro listing c'
    rw [scanDirectory_dir, scanDirectory_dir]
    apply filter_filterMap_congr
    intro file _
    by_cases hs : skipped file
    · simp [hs]
    · simp only [hs, Bool.false_eq_true, if_false]
      by_cases hfile : file = sub
      · subst hfile
        rw [Function.update_same, h]
        simp [scanItem, Option.filter, Entry.name]
      · rw [Function.update_noteq hfile]

/-- C8 (amended), at a content root holding the unlistable directory `drafts` and
the document `about.html`. -/
theorem scanDirectory_unlistable_subdirectory_witness :
    unreadableChild (js "drafts") = .dir none (fun _ => .absent) ∧
    Entry.folder (js "drafts") (js "posts/drafts") [] ∈ scanDirectory unreadableTree (js "posts") :=
  ⟨rfl,
   (scanDirectory_unlistable_subdirectory [js "drafts", js "about.html"] unreadableChild
      (js "posts") (js "drafts") (fun _ => .absent) rfl).2.1 (by decide) (by decide)⟩

/-- C8, refuted as stated: the directory `drafts` cannot be listed, and yet the
result for its parent holds an entry named `drafts` (a folder without children)
next to the document. -/
theorem unlistable_subdirectory_not_omitted :
    unreadableChild (js "drafts") = .dir none (fun _ => .absent) ∧
    scanDirectory unreadableTree (js "posts") =
      [Entry.file (js "about.html") (js "posts/about.html") (js "About") false,
       Entry.folder (js "drafts") (js "posts/drafts") []] ∧
    js "drafts" ∈ (scanDirectory unreadableTree (js "posts")).map Entry.name :=
  ⟨rfl, rfl, by decide⟩

/-! ### `path.join` on basenames -/

theorem intercalate_concat (segs : List JsString) (b : JsString) (h : segs ≠ []) :
    [cSlash].intercalate (segs ++ [b]) = [cSlash].intercalate segs ++ cSlash :: b := by
  induction segs with
  | nil => exact absurd rfl h
  | cons a rest ih =>
    cases rest with
    | nil => simp [List.intercalate]
    | cons a' rest' =>
      have ih' := ih (by simp)
      simp only [List.intercalate, List.cons_append, List.intersperse_cons₂, List.flatten_cons,
        List.append_assoc] at ih' ⊢
      rw [ih']

theorem foldl_normalizeStep_good (segs stack : List JsString)
    (h : ∀ s ∈ segs, GoodSegment s) :
    segs.foldl (normalizeStep true) stack = segs.reverse ++ stack := by
  induction segs generalizing stack with
  | nil => rfl
  | cons s rest ih =>
    obtain ⟨h1, -, h3, h4⟩ := h s (List.mem_cons_self s rest)
    have hstep : normalizeStep true stack s = s :: stack := by
      simp [normalizeStep, h1, h3, h4]
    rw [List.foldl_cons, hstep, ih _ (fun x hx => h x (List.mem_cons_of_mem s hx))]
    simp

theorem intercalate_head (segs : List JsString) (h : segs ≠ [])
    (hg : ∀ s ∈ segs, GoodSegment s) :
    ∃ c rest, [cSlash].intercalate segs = c :: rest ∧ c ≠ cSlash := by
  cases segs with
  | nil => exact absurd rfl h
  | cons a rest =>
    obtain ⟨h1, h2, -, -⟩ := hg a (List.mem_cons_self a rest)
    cases a with
    | nil => exact absurd rfl h1
    | cons c cs =>
      have hc : c ≠ cSlash := fun hEq => h2 (by simp [hEq])
      cases rest with
      | nil => exact ⟨c, cs, by simp [List.intercalate], hc⟩
      | cons a' rest' =>
        exact ⟨c, _, by simp only [List.intercalate, List.intersperse_cons₂, List.flatten_cons,
          List.cons_append]; rfl, hc⟩

theorem intercalate_last (segs : List JsString) (h : segs ≠ [])
    (hg : ∀ s ∈ segs, GoodSegment s) :
    ∃ init c, [cSlash].intercalate segs = init ++ [c] ∧ c ≠ cSlash := by
  obtain ⟨front, l, rfl⟩ : ∃ front l, segs = front ++ [l] := by
    rcases List.eq_nil_or_concat segs with h0 | ⟨front, l, hfl⟩
    · exact absurd h0 h
    · exact ⟨front, l, by simpa using hfl⟩
  obtain ⟨h1, h2, -, -⟩ := hg l (by simp)
  obtain ⟨li, c, rfl⟩ : ∃ li c, l = li ++ [c] := by
    rcases List.eq_nil_or_concat l with h0 | ⟨li, c, hlc⟩
    · exact absurd h0 h1
    · exact ⟨li, c, by simpa using hlc⟩
  have hc : c ≠ cSlash := fun hEq => h2 (by simp [hEq])
  by_cases hf : front = []
  · subst hf
    exact ⟨li, c, by simp [List.intercalate], hc⟩
  · refine ⟨[cSlash].intercalate front ++ cSlash :: li, c, ?_, hc⟩
    rw [intercalate_concat front _ hf]
    simp

theorem pathNormalize_intercalate (segs : List JsString) (h : segs ≠ [])
    (hg : ∀ s ∈ segs, GoodSegment s) :
    pathNormalize ([cSlash].intercalate segs) = [cSlash].intercalate segs := by
  obtain ⟨c, rest, hhead, hc⟩ := intercalate_head segs h hg
  obtain ⟨front, d, hlast, hd⟩ := intercalate_last segs h hg
  have hsplit : ([cSlash].intercalate segs).splitOn cSlash = segs :=
    List.splitOn_intercalate segs cSlash (fun l hl => (hg l hl).2.1) h
  have hne : [cSlash].intercalate segs ≠ [] := by rw [hhead]; simp
  have hAbs : ¬ (([cSlash].intercalate segs).head? = some cSlash) := by
    rw [hhead]; simpa using hc
  have hTrail : ¬ (([cSlash].intercalate segs).getLast? = some cSlash) := by
    rw [hlast, List.getLast?_concat]; simpa using hd
  unfold pathNormalize
  simp only [hne, if_false, hAbs, hTrail, decide_False, Bool.not_false, hsplit,
    foldl_normalizeStep_good segs [] hg, List.append_nil, List.reverse_reverse]

theorem pathJoin_normal {relativePath file : JsString} (hrel : NormalRelPath relativePath)
    (hfile : GoodSegment file) :
    pathJoin relativePath file = relativePath ++ cSlash :: file ∧
    NormalRelPath (relativePath ++ cSlash :: file) := by
  obtain ⟨segs, hne, hg, rfl⟩ := hrel
  have hg' : ∀ s ∈ segs ++ [file], GoodSegment s := by
    intro s hs
    rcases List.mem_append.mp hs with h | h
    · exact hg s h
    · simp only [List.mem_singleton] at h; subst h; exact hfile
  have hcat := intercalate_concat segs file hne
  obtain ⟨c, rest, hhead, -⟩ := intercalate_head segs hne hg
  refine ⟨?_, segs ++ [file], by simp, hg', hcat.symm⟩
  have h1 : [cSlash].intercalate segs ≠ [] := by rw [hhead]; simp
  unfold pathJoin
  simp only [h1, hfile.1, false_and, if_false]
  rw [← hcat, pathNormalize_intercalate _ (by simp) hg']

theorem normalRelPath_posts : NormalRelPath (js "posts") :=
  ⟨[js "posts"], by simp, by
    intro s hs
    simp only [List.mem_singleton] at hs
    subst hs
    refine ⟨by decide, by decide, by decide, by decide⟩, by decide⟩

theorem goodSegment_of_kept {file : JsString} (hb : IsBasename file)
    (hs : skipped file = false) : GoodSegment file := by
  obtain ⟨-, hdot, -⟩ := skipped_eq_false_iff.mp hs
  refine ⟨hb.1, hb.2, ?_, ?_⟩
  · rintro rfl; exact absurd hdot (by decide)
  · rintro rfl; exact absurd hdot (by decide)

/-! ### The `path` of an entry -/

theorem backslashesToSlashes_join (a b : JsString) :
    backslashesToSlashes (a ++ cSlash :: b) =
      backslashesToSlashes a ++ cSlash :: backslashesToSlashes b := by
  simp [backslashesToSlashes, cSlash, cBackslash]

theorem backslashesToSlashes_of_not_mem {s : JsString} (h : cBackslash ∉ s) :
    backslashesToSlashes s = s := by
  induction s with
  | nil => rfl
  | cons c cs ih =>
    have hc : c ≠ cBackslash := fun hEq => h (by simp [hEq])
    have hcs : cBackslash ∉ cs := fun hmem => h (List.mem_cons_of_mem c hmem)
    have ih' := ih hcs
    simp only [backslashesToSlashes, List.map_cons, hc, if_false] at ih' ⊢
    rw [ih']

theorem scanItem_path {file relPath : JsString} {node : FsNode} {children : List Entry}
    {e : Entry} (h : scanItem file relPath node children = some e) :
    e.path = backslashesToSlashes relPath := by
  rcases scanItem_eq_some_iff.mp h with ⟨-, rfl⟩ | ⟨-, text, -, rfl⟩ <;> rfl

theorem allListedNames_child {P : JsString → Prop} {files : List JsString}
    {child : JsString → FsNode} {file : JsString}
    (h : AllListedNames P (.dir (some files) child)) (hfile : file ∈ files) :
    AllListedNames P (child file) :=
  fun files' child' hin n hn => h files' child' (InTree.deeper hfile hin) n hn

/-- The invariant of the recursion: the names of the tree are basenames and the
relative path is in normal form. -/
theorem scan_invariant_step (files : List JsString) (child : JsString → FsNode)
    (rel file : JsString)
    (h : AllListedNames IsBasename (.dir (some files) child) ∧ NormalRelPath rel)
    (hfile : file ∈ files) (hs : skipped file = false) :
    AllListedNames IsBasename (child file) ∧ NormalRelPath (pathJoin rel file) := by
  have hgood := goodSegment_of_kept (h.1 files child (InTree.here _) file hfile) hs
  obtain ⟨hj, hn⟩ := pathJoin_normal h.2 hgood
  exact ⟨allListedNames_child h.1 hfile, by rw [hj]; exact hn⟩

theorem scanDirectory_top_path {t : FsNode} {relativePath : JsString} {e : Entry}
    (ht : AllListedNames IsBasename t) (hrel : NormalRelPath relativePath)
    (h : e ∈ scanDirectory t relativePath) :
    e.path = backslashesToSlashes relativePath ++ cSlash :: backslashesToSlashes e.name := by
  obtain ⟨files, child, rfl, file, hfile, hs, hitem⟩ := mem_scanDirectory_cases h
  have hgood := goodSegment_of_kept (ht files child (InTree.here _) file hfile) hs
  rw [scanItem_path hitem, skippedOrItem_name hitem, (pathJoin_normal hrel hgood).1,
    backslashesToSlashes_join]

theorem scanDirectory_child_path {t : FsNode} {relativePath : JsString} {e c : Entry}
    (ht : AllListedNames IsBasename t) (hrel : NormalRelPath relativePath)
    (h : e ∈ scanDirectory t relativePath) (hc : c ∈ e.children) :
    c.path = e.path ++ cSlash :: backslashesToSlashes c.name := by
  obtain ⟨files, child, rfl, file, hfile, hs, hitem⟩ := mem_scanDirectory_cases h
  obtain ⟨ht', hrel'⟩ := scan_invariant_step files child relativePath file ⟨ht, hrel⟩ hfile hs
  rcases scanItem_children hitem with hch | hch
  · rw [hch] at hc
    rw [scanDirectory_top_path ht' hrel' hc, scanItem_path hitem]
  · rw [hch] at hc
    cases hc

/-- C3 (amended): in the index built from a directory tree (whose listed names are
non-empty and hold no `/`), an entry whose `name` holds no backslash has as `path`
`posts/` followed by its `name` when it is a top-level entry, and the `path` of its
parent, `/` and its `name` when it is nested. -/
theorem buildNavigation_paths (postsDir : FsNode) (h : AllListedNames IsBasename postsDir) :
    (∀ e, e ∈ buildNavigation postsDir → cBackslash ∉ e.name →
      e.path = js "posts/" ++ e.name) ∧
    (∀ parent, parent ∈ allEntries (buildNavigation postsDir) →
      ∀ e, e ∈ parent.children → cBackslash ∉ e.name →
        e.path = parent.path ++ cSlash :: e.name) := by
  constructor
  · intro e he hb
    unfold buildNavigation at he
    split at he
    · rw [scanDirectory_top_path h normalRelPath_posts he,
        backslashesToSlashes_of_not_mem hb]
      rfl
    · cases he
  · intro parent hp e he hb
    unfold buildNavigation at hp
    split at hp
    · obtain ⟨t', rel', -, ⟨ht', hrel'⟩, hmem⟩ :=
        allEntries_scanDirectory_inv
          (fun t rel => AllListedNames IsBasename t ∧ NormalRelPath rel)
          scan_invariant_step ⟨h, normalRelPath_posts⟩ hp
      rw [scanDirectory_child_path ht' hrel' hmem he, backslashesToSlashes_of_not_mem hb]
    · simp [allEntries] at hp

theorem flatTree_basenames : AllListedNames IsBasename flatTree := by
  intro files child hin n hn
  cases hin with
  | here =>
    simp only [List.mem_singleton] at hn
    subst hn
    exact ⟨by decide, by decide⟩
  | deeper _ hin' => cases hin'

/-- C3 (amended), at a content root holding the document `a.html`: its `path` is
`posts/a.html`. -/
theorem buildNavigation_paths_witness :
    AllListedNames IsBasename flatTree ∧
    Entry.file (js "a.html") (js "posts/a.html") (js "a") false ∈ buildNavigation flatTree ∧
    (Entry.file (js "a.html") (js "posts/a.html") (js "a") false).path =
      js "posts/" ++ (Entry.file (js "a.html") (js "posts/a.html") (js "a") false).name :=
  ⟨flatTree_basenames, List.mem_singleton.mpr rfl,
   (buildNavigation_paths flatTree flatTree_basenames).1 _ (List.mem_singleton.mpr rfl)
     (by decide)⟩

/-- C3, refuted as stated: the top-level document `a.html` has the `path`
`posts/a.html`, not its `name`; and the document named `x\y.html` has the `path`
`posts/x/y.html`, which is not `posts/` followed by its `name`. -/
theorem top_level_path_is_not_the_name :
    (buildNavigation flatTree).map (fun e => (e.name, e.path)) =
      [(js "a.html", js "posts/a.html")] ∧
    js "posts/a.html" ≠ js "a.html" ∧
    (buildNavigation backslashTree).map (fun e => (e.name, e.path)) =
      [(backslashName, js "posts/x/y.html")] ∧
    js "posts/x/y.html" ≠ js "posts/" ++ backslashName :=
  ⟨rfl, by decide, rfl, by decide⟩

/-! ### Uniqueness of the paths -/

theorem plainInv_step {files : List JsString} {child : JsString → FsNode}
    {rel file : JsString} (h : PlainInv (.dir (some files) child) rel)
    (hfile : file ∈ files) (hs : skipped file = false) :
    pathJoin rel file = rel ++ cSlash :: file ∧ PlainInv (child file) (rel ++ cSlash :: file) := by
  obtain ⟨hn, hd, hrel, hb⟩ := h
  have hplain := hn files child (InTree.here _) file hfile
  have hgood := goodSegment_of_kept hplain.1 hs
  obtain ⟨hj, hnorm⟩ := pathJoin_normal hrel hgood
  refine ⟨hj, allListedNames_child hn hfile,
    fun files' child' hin => hd files' child' (InTree.deeper hfile hin), hnorm, ?_⟩
  intro hmem
  rcases List.mem_append.mp hmem with h1 | h1
  · exact hb h1
  · rcases List.mem_cons.mp h1 with h2 | h2
    · exact absurd h2 (by decide)
    · exact hplain.2 h2

theorem plainInv_item_path {files : List JsString} {child : JsString → FsNode}
    {rel file : JsString} {children : List Entry} {top : Entry}
    (h : PlainInv (.dir (some files) child) rel)
    (hfile : file ∈ files) (hs : skipped file = false)
    (hitem : scanItem file (pathJoin rel file) (child file) children = some top) :
    top.path = rel ++ cSlash :: file := by
  obtain ⟨hj, -, -, -, hb⟩ := plainInv_step h hfile hs
  rw [scanItem_path hitem, hj, backslashesToSlashes_of_not_mem hb]

theorem path_below_rel {t : FsNode} {rel : JsString} {e : Entry}
    (h : PlainInv t rel) (he : e ∈ allEntries (scanDirectory t rel)) :
    ∃ rest, e.path = rel ++ cSlash :: rest := by
  induction t generalizing rel with
  | dir listing child ih =>
    obtain ⟨top, htop, hd⟩ := mem_allEntries.mp he
    obtain ⟨files, child', ht, file, hfile, hs, hitem⟩ := mem_scanDirectory_cases htop
    cases ht
    have htp := plainInv_item_path h hfile hs hitem
    rcases mem_withDescendants.mp hd with rfl | hbelow
    · exact ⟨file, htp⟩
    · rcases scanItem_children hitem with hc | hc
      · rw [hc] at hbelow
        obtain ⟨hj, hinv⟩ := plainInv_step h hfile hs
        rw [hj] at hbelow
        obtain ⟨rest, hrest⟩ := ih file hinv hbelow
        exact ⟨file ++ cSlash :: rest, by rw [hrest]; simp⟩
      · rw [hc] at hbelow
        simp [allEntries] at hbelow
  | _ => simp [scanDirectory, allEntries] at he

theorem first_segment_unique {f f' tail tail' : JsString}
    (hf : cSlash ∉ f) (hf' : cSlash ∉ f')
    (ht : tail = [] ∨ ∃ r, tail = cSlash :: r) (ht' : tail' = [] ∨ ∃ r, tail' = cSlash :: r)
    (h : f ++ tail = f' ++ tail') : f = f' := by
  induction f generalizing f' with
  | nil =>
    cases f' with
    | nil => rfl
    | cons c cs =>
      rcases ht with rfl | ⟨r, rfl⟩
      · simp at h
      · simp only [List.nil_append, List.cons_append, List.cons.injEq] at h
        exact absurd (by simp [← h.1]) hf'
  | cons c cs ih =>
    cases f' with
    | nil =>
      rcases ht' with rfl | ⟨r, rfl⟩
      · simp at h
      · simp only [List.nil_append, List.cons_append, List.cons.injEq] at h
        exact absurd (by simp [h.1]) hf
    | cons c' cs' =>
      simp only [List.cons_append, List.cons.injEq] at h
      rw [h.1, ih (fun hm => hf (List.mem_cons_of_mem c hm))
        (fun hm => hf' (List.mem_cons_of_mem c' hm)) h.2]

/-- The paths of a top-level entry and of everything below it start with the
relative path, `/` and the name of the top-level entry. -/
theorem group_paths {files : List JsString} {child : JsString → FsNode}
    {rel file : JsString} {top d : Entry}
    (h : PlainInv (.dir (some files) child) rel)
    (hfile : file ∈ files) (hs : skipped file = false)
    (hitem : scanItem file (pathJoin rel file) (child file)
      (scanDirectory (child file) (pathJoin rel file)) = some top)
    (hd : d ∈ withDescendants top) :
    ∃ tail, d.path = rel ++ cSlash :: (file ++ tail) ∧ (tail = [] ∨ ∃ r, tail = cSlash :: r) := by
  have htp := plainInv_item_path h hfile hs hitem
  rcases mem_withDescendants.mp hd with rfl | hbelow
  · exact ⟨[], by simpa using htp, Or.inl rfl⟩
  · rcases scanItem_children hitem with hc | hc
    · rw [hc] at hbelow
      obtain ⟨hj, hinv⟩ := plainInv_step h hfile hs
      rw [hj] at hbelow
      obtain ⟨rest, hrest⟩ := path_below_rel hinv hbelow
      exact ⟨cSlash :: rest, by rw [hrest]; simp, Or.inr ⟨rest, rfl⟩⟩
    · rw [hc] at hbelow
      simp [allEntries] at hbelow

theorem group_nodup {files : List JsString} {child : JsString → FsNode}
    {rel file : JsString} {top : Entry}
    (h : PlainInv (.dir (some files) child) rel)
    (ih : ∀ rel', PlainInv (child file) rel' →
      (allPaths (scanDirectory (child file) rel')).Nodup)
    (hfile : file ∈ files) (hs : skipped file = false)
    (hitem : scanItem file (pathJoin rel file) (child file)
      (scanDirectory (child file) (pathJoin rel file)) = some top) :
    ((withDescendants top).map Entry.path).Nodup := by
  have htp := plainInv_item_path h hfile hs hitem
  obtain ⟨hj, hinv⟩ := plainInv_step h hfile hs
  rcases scanItem_eq_some_iff.mp hitem with ⟨-, rfl⟩ | ⟨-, text, -, rfl⟩
  · simp only [withDescendants, List.map_cons, List.nodup_cons]
    refine ⟨?_, ih _ (by rw [hj]; exact hinv)⟩
    intro hmem
    obtain ⟨d, hd, hdp⟩ := List.mem_map.mp hmem
    rw [hj] at hd
    obtain ⟨rest, hrest⟩ := path_below_rel hinv hd
    rw [hrest, htp] at hdp
    have hlen := congrArg List.length hdp
    simp at hlen
  · simp [withDescendants]

theorem filterMap_paths_nodup {files : List JsString} {child : JsString → FsNode}
    {rel : JsString} (h : PlainInv (.dir (some files) child) rel)
    (ih : ∀ file rel', PlainInv (child file) rel' →
      (allPaths (scanDirectory (child file) rel')).Nodup)
    (l : List JsString) (hl : l.Nodup) (hsub : ∀ f, f ∈ l → f ∈ files) :
    (allPaths (l.filterMap fun file =>
        if skipped file then none
        else scanItem file (pathJoin rel file) (child file)
          (scanDirectory (child file) (pathJoin rel file)))).Nodup ∧
    ∀ d, d ∈ allEntries (l.filterMap fun file =>
        if skipped file then none
        else scanItem file (pathJoin rel file) (child file)
          (scanDirectory (child file) (pathJoin rel file))) →
      ∃ f tail, f ∈ l ∧ d.path = rel ++ cSlash :: (f ++ tail) ∧
        (tail = [] ∨ ∃ r, tail = cSlash :: r) := by
  induction l with
  | nil => simp [allPaths, allEntries]
  | cons f rest ihl =>
    obtain ⟨hnotin, hrest⟩ := List.nodup_cons.mp hl
    obtain ⟨ihN, ihK⟩ := ihl hrest (fun x hx => hsub x (List.mem_cons_of_mem f hx))
    have hf : f ∈ files := hsub f (List.mem_cons_self f rest)
    rw [List.filterMap_cons]
    by_cases hs : skipped f = true
    · simp only [hs, if_true]
      exact ⟨ihN, fun d hd => by
        obtain ⟨f', tail, hf', hp⟩ := ihK d hd
        exact ⟨f', tail, List.mem_cons_of_mem f hf', hp⟩⟩
    · have hs' : skipped f = false := by simpa using hs
      simp only [hs', Bool.false_eq_true, if_false]
      cases hitem : scanItem f (pathJoin rel f) (child f)
          (scanDirectory (child f) (pathJoin rel f)) with
      | none =>
        exact ⟨ihN, fun d hd => by
          obtain ⟨f', tail, hf', hp⟩ := ihK d hd
          exact ⟨f', tail, List.mem_cons_of_mem f hf', hp⟩⟩
      | some top =>
        have hslash : ∀ x, x ∈ files → cSlash ∉ x :=
          fun x hx => (h.1 files child (InTree.here _) x hx).1.2
        constructor
        · simp only [allPaths, allEntries, List.map_append]
          rw [List.nodup_append]
          refine ⟨group_nodup h (ih f) hf hs' hitem, ihN, ?_⟩
          intro p hp1 hp2
          obtain ⟨d1, hd1, rfl⟩ := List.mem_map.mp hp1
          obtain ⟨d2, hd2, hEq⟩ := List.mem_map.mp hp2
          obtain ⟨t1, hp1', ht1⟩ := group_paths h hf hs' hitem hd1
          obtain ⟨f2, t2, hf2, hp2', ht2⟩ := ihK d2 hd2
          rw [hp1', hp2'] at hEq
          have hcore : f2 ++ t2 = f ++ t1 := by
            have := List.append_cancel_left hEq
            simpa using this
          have hff : f2 = f :=
            first_segment_unique (hslash f2 (hsub f2 (List.mem_cons_of_mem f hf2)))
              (hslash f hf) ht2 ht1 hcore
          exact hnotin (hff ▸ hf2)
        · intro d hd
          simp only [allEntries, List.mem_append] at hd
          rcases hd with hd | hd
          · obtain ⟨tail, hp, ht⟩ := group_paths h hf hs' hitem hd
            exact ⟨f, tail, List.mem_cons_self f rest, hp, ht⟩
          · obtain ⟨f', tail, hf', hp⟩ := ihK d hd
            exact ⟨f', tail, List.mem_cons_of_mem f hf', hp⟩

theorem scanDirectory_paths_nodup {t : FsNode} {rel : JsString} (h : PlainInv t rel) :
    (allPaths (scanDirectory t rel)).Nodup := by
  induction t generalizing rel with
  | dir listing child ih =>
    cases listing with
    | none => simp [scanDirectory, allPaths, allEntries]
    | some files =>
      rw [scanDirectory_dir]
      exact (filterMap_paths_nodup h (fun file rel' hinv => ih file hinv) (sortNames files)
        ((sortNames_perm files).nodup_iff.mpr (h.2.1 files child (InTree.here _)))
        (fun f hf => (sortNames_perm files).mem_iff.mp hf)).1
  | _ => simp [scanDirectory, allPaths, allEntries]

theorem not_mem_backslashesToSlashes (s : JsString) : cBackslash ∉ backslashesToSlashes s := by
  intro h
  obtain ⟨c, -, hc⟩ := List.mem_map.mp h
  split at hc
  · exact absurd hc (by decide)
  · rename_i hne
    exact hne hc

theorem scanDirectory_paths_no_backslash {t : FsNode} {rel : JsString} {e : Entry}
    (he : e ∈ allEntries (scanDirectory t rel)) : cBackslash ∉ e.path := by
  obtain ⟨t', rel', -, hmem⟩ := allEntries_scanDirectory he
  obtain ⟨files, child, -, file, -, -, hitem⟩ := mem_scanDirectory_cases hmem
  rw [scanItem_path hitem]
  exact not_mem_backslashesToSlashes _

theorem plainInv_posts {postsDir : FsNode} (hn : AllListedNames PlainName postsDir)
    (hd : SiblingsDistinct postsDir) : PlainInv postsDir (js "posts") :=
  ⟨hn, hd, normalRelPath_posts, by decide⟩

/-- C10 (amended): in the index built from a directory tree whose sibling names are
pairwise distinct and hold no backslash (and, as in any directory, are non-empty
and hold no `/`), no two entries, at any depths, have the same `path`; and in the
index built from any tree no `path` holds a backslash. -/
theorem buildNavigation_paths_unique (postsDir : FsNode)
    (hn : AllListedNames PlainName postsDir) (hd : SiblingsDistinct postsDir) :
    (allPaths (buildNavigation postsDir)).Nodup ∧
    ∀ (anyDir : FsNode) (e : Entry), e ∈ allEntries (buildNavigation anyDir) →
      cBackslash ∉ e.path := by
  constructor
  · unfold buildNavigation
    split
    · exact scanDirectory_paths_nodup (plainInv_posts hn hd)
    · simp [allPaths, allEntries]
  · intro anyDir e he
    unfold buildNavigation at he
    split at he
    · exact scanDirectory_paths_no_backslash he
    · simp [allEntries] at he

theorem inTree_file_dir {content : Option JsString} {files : List JsString}
    {child : JsString → FsNode} : ¬ InTree (.file content) (.dir (some files) child) := by
  intro h
  cases h

theorem shuffledTreeA_dirs {files : List JsString} {child : JsString → FsNode}
    (h : InTree shuffledTreeA (.dir (some files) child)) :
    files = [js "b.html", js "a"] ∨ files = [js "z.html", js "y.html"] := by
  cases h with
  | here => exact Or.inl rfl
  | deeper hfile hin =>
    simp only [List.mem_cons, List.mem_singleton, List.not_mem_nil, or_false] at hfile
    rcases hfile with rfl | rfl
    · exact absurd hin inTree_file_dir
    · have hin' : InTree (.dir (some [js "z.html", js "y.html"])
          (fun _ => .file (some (js "<h1>#x</h1>")))) (.dir (some files) child) := hin
      cases hin' with
      | here => exact Or.inr rfl
      | deeper _ hin'' => exact absurd hin'' inTree_file_dir

theorem shuffledTreeA_plain : AllListedNames PlainName shuffledTreeA := by
  intro files child hin n hn
  rcases shuffledTreeA_dirs hin with rfl | rfl
  · simp only [List.mem_cons, List.mem_singleton, List.not_mem_nil, or_false] at hn
    rcases hn with rfl | rfl
    · exact ⟨⟨by decide, by decide⟩, by decide⟩
    · exact ⟨⟨by decide, by decide⟩, by decide⟩
  · simp only [List.mem_cons, List.mem_singleton, List.not_mem_nil, or_false] at hn
    rcases hn with rfl | rfl
    · exact ⟨⟨by decide, by decide⟩, by decide⟩
    · exact ⟨⟨by decide, by decide⟩, by decide⟩

theorem shuffledTreeA_distinct : SiblingsDistinct shuffledTreeA := by
  intro files child hin
  rcases shuffledTreeA_dirs hin with rfl | rfl
  · decide
  · decide

/-- C10 (amended), at a content root with a document and a folder holding two
documents: the four paths are pairwise distinct. -/
theorem buildNavigation_paths_unique_witness :
    AllListedNames PlainName shuffledTreeA ∧ SiblingsDistinct shuffledTreeA ∧
    allPaths (buildNavigation shuffledTreeA) =
      [js "posts/a", js "posts/a/y.html", js "posts/a/z.html", js "posts/b.html"] ∧
    (allPaths (buildNavigation shuffledTreeA)).Nodup :=
  ⟨shuffledTreeA_plain, shuffledTreeA_distinct, rfl,
   (buildNavigation_paths_unique shuffledTreeA shuffledTreeA_plain shuffledTreeA_distinct).1⟩

theorem collidingTree_dirs {files : List JsString} {child : JsString → FsNode}
    (h : InTree collidingTree (.dir (some files) child)) :
    files = [js "a", js "a" ++ cBackslash :: js "b.html"] ∨ files = [js "b.html"] := by
  cases h with
  | here => exact Or.inl rfl
  | deeper hfile hin =>
    simp only [List.mem_cons, List.mem_singleton, List.not_mem_nil, or_false] at hfile
    rcases hfile with rfl | rfl
    · have hin' : InTree (.dir (some [js "b.html"]) (fun _ => .file (some [])))
          (.dir (some files) child) := hin
      cases hin' with
      | here => exact Or.inr rfl
      | deeper _ hin'' => exact absurd hin'' inTree_file_dir
    · exact absurd hin inTree_file_dir

/-- C10, refuted as stated: the sibling names of the tree are pairwise distinct (and
are names a POSIX directory can hold), and yet the document `b.html` of the folder
`a` and the document named `a\b.html` both have the `path` `posts/a/b.html`. -/
theorem distinct_siblings_with_equal_paths :
    SiblingsDistinct collidingTree ∧ AllListedNames IsBasename collidingTree ∧
    allPaths (buildNavigation collidingTree) =
      [js "posts/a", js "posts/a/b.html", js "posts/a/b.html"] ∧
    ¬ (allPaths (buildNavigation collidingTree)).Nodup := by
  refine ⟨?_, ?_, rfl, ?_⟩
  · intro files child hin
    rcases collidingTree_dirs hin with rfl | rfl
    · decide
    · decide
  · intro files child hin n hn
    rcases collidingTree_dirs hin with rfl | rfl
    · simp only [List.mem_cons, List.mem_singleton, List.not_mem_nil, or_false] at hn
      rcases hn with rfl | rfl
      · exact ⟨by decide, by decide⟩
      · exact ⟨by decide, by decide⟩
    · simp only [List.mem_singleton] at hn
      subst hn
      exact ⟨by decide, by decide⟩
  · have hEq : allPaths (buildNavigation collidingTree) =
        [js "posts/a", js "posts/a/b.html", js "posts/a/b.html"] := rfl
    rw [hEq]
    decide

/-! ### The regular expressions of `getTitle` -/

theorem charMatches_true_iff {p c : Nat} (hp : p < 65 ∨ 90 < p) :
    charMatches true p c = true ↔ EqIgnoringCase p c := by
  unfold charMatches canonicalize EqIgnoringCase
  simp only [if_true, beq_iff_eq]
  split <;> split <;> omega

theorem litMatch_eq_some_iff {p s r : JsString} (hp : LowerPattern p) :
    litMatch true p s = some r ↔ ∃ m, s = m ++ r ∧ SameIgnoringCase p m := by
  induction p generalizing s with
  | nil =>
    simp only [litMatch, Option.some.injEq, SameIgnoringCase, List.forall₂_nil_left_iff]
    constructor
    · rintro rfl; exact ⟨[], rfl, rfl⟩
    · rintro ⟨m, rfl, rfl⟩; rfl
  | cons a ps ih =>
    have ha : a < 65 ∨ 90 < a := hp a (List.mem_cons_self a ps)
    have hps : LowerPattern ps := fun c hc => hp c (List.mem_cons_of_mem a hc)
    cases s with
    | nil =>
      simp only [litMatch, SameIgnoringCase]
      constructor
      · intro h; cases h
      · rintro ⟨m, hm, hf⟩
        cases hf with
        | cons _ _ => cases hm
    | cons c cs =>
      simp only [litMatch]
      constructor
      · intro h
        split at h
        · rename_i hc
          obtain ⟨m, rfl, hm⟩ := (ih hps).mp h
          exact ⟨c :: m, rfl, List.Forall₂.cons ((charMatches_true_iff ha).mp hc) hm⟩
        · cases h
      · rintro ⟨m, hm, hf⟩
        cases hf with
        | cons hc hrest =>
          simp only [List.cons_append, List.cons.injEq] at hm
          obtain ⟨rfl, rfl⟩ := hm
          rw [if_pos ((charMatches_true_iff ha).mpr hc)]
          exact (ih hps).mpr ⟨_, rfl, hrest⟩

theorem litMatch_gt_cons (c : Nat) (r : JsString) :
    litMatch true [cGT] (c :: r) = if c = cGT then some r else none := by
  have h : charMatches true cGT c = true ↔ c = cGT := by
    rw [charMatches_true_iff (by decide)]
    unfold EqIgnoringCase cGT
    omega
  by_cases hc : c = cGT
  · rw [if_pos hc]
    simp only [litMatch, h.mpr hc, if_true]
  · rw [if_neg hc]
    have hcm : ¬ (charMatches true cGT c = true) := fun hcm => hc (h.mp hcm)
    simp [litMatch, hcm]

theorem starGreedyNot_none {α : Type} {x : Nat} (k : JsString → Option α)
    (hk : ∀ s, s.head? ≠ some x → k s = none) (s : JsString) (h : x ∉ s) :
    starGreedyNot x k s = none := by
  induction s with
  | nil => rw [starGreedyNot]; exact hk [] (by simp)
  | cons c cs ih =>
    have hc : c ≠ x := fun hEq => h (by simp [hEq])
    have hcs : x ∉ cs := fun hm => h (List.mem_cons_of_mem c hm)
    rw [starGreedyNot, if_pos hc, ih hcs]
    exact hk (c :: cs) (by simpa using hc)

theorem starGreedyNot_at {α : Type} {x : Nat} (k : JsString → Option α)
    (hk : ∀ s, s.head? ≠ some x → k s = none) (attrs r : JsString) (h : x ∉ attrs) :
    starGreedyNot x k (attrs ++ x :: r) = k (x :: r) := by
  induction attrs with
  | nil =>
    rw [List.nil_append, starGreedyNot, if_neg (by simp)]
  | cons c cs ih =>
    have hc : c ≠ x := fun hEq => h (by simp [hEq])
    have hcs : x ∉ cs := fun hm => h (List.mem_cons_of_mem c hm)
    rw [List.cons_append, starGreedyNot, if_pos hc, ih hcs]
    cases hkr : k (x :: r) with
    | some v => rfl
    | none => exact hk (c :: (cs ++ x :: r)) (by simpa using hc)

theorem afterGt_none {α : Type} (K : JsString → Option α) (s : JsString)
    (h : s.head? ≠ some cGT) :
    (match litMatch true [cGT] s with
      | none => none
      | some s3 => K s3) = none := by
  cases s with
  | nil => rfl
  | cons c r =>
    have hc : c ≠ cGT := by simpa using h
    rw [litMatch_gt_cons, if_neg hc]

theorem afterGt_cons {α : Type} (K : JsString → Option α) (r : JsString) :
    (match litMatch true [cGT] (cGT :: r) with
      | none => none
      | some s3 => K s3) = K r := by
  rw [litMatch_gt_cons, if_pos rfl]

theorem exists_first_gt (s : JsString) (h : cGT ∈ s) :
    ∃ attrs r, s = attrs ++ cGT :: r ∧ cGT ∉ attrs := by
  induction s with
  | nil => cases h
  | cons c cs ih =>
    by_cases hc : c = cGT
    · exact ⟨[], cs, by simp [hc], by simp⟩
    · have hcs : cGT ∈ cs := by
        rcases List.mem_cons.mp h with h1 | h1
        · exact absurd h1.symm hc
        · exact h1
      obtain ⟨attrs, r, rfl, hn⟩ := ih hcs
      refine ⟨c :: attrs, r, rfl, ?_⟩
      intro hm
      rcases List.mem_cons.mp hm with h1 | h1
      · exact hc h1.symm
      · exact hn h1

theorem first_gt_unique {a a' r r' : JsString} (ha : cGT ∉ a) (ha' : cGT ∉ a')
    (h : a ++ cGT :: r = a' ++ cGT :: r') : a = a' ∧ r = r' := by
  induction a generalizing a' with
  | nil =>
    cases a' with
    | nil => simpa using h
    | cons c cs =>
      simp only [List.nil_append, List.cons_append, List.cons.injEq] at h
      exact absurd (by simp [← h.1]) ha'
  | cons c cs ih =>
    cases a' with
    | nil =>
      simp only [List.nil_append, List.cons_append, List.cons.injEq] at h
      exact absurd (by simp [h.1]) ha
    | cons c' cs' =>
      simp only [List.cons_append, List.cons.injEq] at h
      obtain ⟨h1, h2⟩ := ih (fun hm => ha (List.mem_cons_of_mem c hm))
        (fun hm => ha' (List.mem_cons_of_mem c' hm)) h.2
      exact ⟨by rw [h.1, h1], h2⟩

theorem starLazyAny_some {k : JsString → Bool} {acc s cap : JsString}
    (h : starLazyAny k acc s = some cap) :
    ∃ mid rest, s = mid ++ rest ∧ cap = acc ++ mid ∧ k rest = true ∧
      ∀ mid' rest', s = mid' ++ rest' → k rest' = true → mid.length ≤ mid'.length := by
  induction s generalizing acc with
  | nil =>
    simp only [starLazyAny] at h
    split at h
    · rename_i hk
      cases h
      exact ⟨[], [], rfl, by simp, hk, fun _ _ _ _ => Nat.zero_le _⟩
    · cases h
  | cons c cs ih =>
    simp only [starLazyAny] at h
    split at h
    · rename_i hk
      cases h
      exact ⟨[], c :: cs, rfl, by simp, hk, fun _ _ _ _ => Nat.zero_le _⟩
    · rename_i hk
      obtain ⟨mid, rest, rfl, rfl, hrest, hmin⟩ := ih h
      refine ⟨c :: mid, rest, rfl, by simp, hrest, ?_⟩
      intro mid' rest' hEq hk'
      cases mid' with
      | nil =>
        simp only [List.nil_append] at hEq
        rw [← hEq] at hk'
        exact absurd hk' hk
      | cons c' m' =>
        simp only [List.cons_append, List.cons.injEq] at hEq
        have := hmin m' rest' hEq.2 hk'
        simp only [List.length_cons]
        omega

theorem starLazyAny_complete {k : JsString → Bool} (acc mid rest : JsString)
    (h : k rest = true) : ∃ cap, starLazyAny k acc (mid ++ rest) = some cap := by
  induction mid generalizing acc with
  | nil =>
    cases rest with
    | nil => exact ⟨acc, by simp [starLazyAny, h]⟩
    | cons c cs => exact ⟨acc, by simp [starLazyAny, h]⟩
  | cons c cs ih =>
    by_cases hk : k (c :: cs ++ rest) = true
    · exact ⟨acc, by simp only [List.cons_append] at hk ⊢; simp [starLazyAny, hk]⟩
    · obtain ⟨cap, hcap⟩ := ih (acc ++ [c])
      exact ⟨cap, by simp only [List.cons_append] at hk ⊢; simp [starLazyAny, hk, hcap]⟩

theorem lowerPattern_opening {tag : JsString} (h : LowerPattern tag) :
    LowerPattern (cLT :: tag) := by
  intro c hc
  rcases List.mem_cons.mp hc with rfl | hc'
  · exact Or.inl (by decide)
  · exact h c hc'

theorem lowerPattern_closing {tag : JsString} (h : LowerPattern tag) :
    LowerPattern (cLT :: cSlash :: tag ++ [cGT]) := by
  intro c hc
  simp only [List.cons_append, List.mem_cons, List.mem_append, List.mem_singleton,
    List.not_mem_nil, or_false] at hc
  rcases hc with rfl | rfl | hc' | rfl
  · exact Or.inl (by decide)
  · exact Or.inl (by decide)
  · exact h c hc'
  · exact Or.inl (by decide)

theorem closing_isSome_iff {tag rest : JsString} (h : LowerPattern tag) :
    (litMatch true (cLT :: cSlash :: tag ++ [cGT]) rest).isSome = true ↔
      ∃ closing post, rest = closing ++ post ∧
        SameIgnoringCase (cLT :: cSlash :: tag ++ [cGT]) closing := by
  rw [Option.isSome_iff_exists]
  constructor
  · rintro ⟨post, hpost⟩
    obtain ⟨closing, hEq, hcl⟩ := (litMatch_eq_some_iff (lowerPattern_closing h)).mp hpost
    exact ⟨closing, post, hEq, hcl⟩
  · rintro ⟨closing, post, hEq, hcl⟩
    exact ⟨post, (litMatch_eq_some_iff (lowerPattern_closing h)).mpr ⟨closing, hEq, hcl⟩⟩

/-- The anchored pattern succeeds only on an element at the start of the input, and
its capture is the shortest interior of such an element. -/
theorem tagPatternAt_sound {tag s cap : JsString} (htag : LowerPattern tag)
    (h : tagPatternAt tag s = some cap) :
    ∃ attrs post, ElementAtStart tag s attrs cap post ∧
      ∀ attrs' inner' post', ElementAtStart tag s attrs' inner' post' →
        cap.length ≤ inner'.length := by
  unfold tagPatternAt at h
  cases hl : litMatch true (cLT :: tag) s with
  | none => rw [hl] at h; cases h
  | some s1 =>
    rw [hl] at h
    simp only at h
    obtain ⟨opening, rfl, hop⟩ := (litMatch_eq_some_iff (lowerPattern_opening htag)).mp hl
    by_cases hgt : cGT ∈ s1
    · obtain ⟨attrs, r, rfl, hn⟩ := exists_first_gt s1 hgt
      rw [starGreedyNot_at _ (fun s hs => afterGt_none _ s hs) attrs r hn, afterGt_cons] at h
      obtain ⟨mid, rest, rfl, hcap, hk, hmin⟩ := starLazyAny_some h
      simp only [List.nil_append] at hcap
      subst hcap
      obtain ⟨closing, post, rfl, hcl⟩ := (closing_isSome_iff htag).mp hk
      refine ⟨attrs, post, ⟨opening, closing, rfl, hop, hn, hcl⟩, ?_⟩
      rintro attrs' inner' post' ⟨opening', closing', hEq, hop', hn', hcl'⟩
      have hlen : opening.length = opening'.length := by
        rw [← hop.length_eq, ← hop'.length_eq]
      obtain ⟨-, htail⟩ := List.append_inj hEq hlen
      obtain ⟨-, hrest⟩ := first_gt_unique hn hn' htail
      exact hmin inner' (closing' ++ post') hrest
        ((closing_isSome_iff htag).mpr ⟨closing', post', rfl, hcl'⟩)
    · rw [starGreedyNot_none _ (fun s hs => afterGt_none _ s hs) s1 hgt] at h
      cases h

/-- The anchored pattern succeeds on every input that starts with an element. -/
theorem tagPatternAt_complete {tag s attrs inner post : JsString} (htag : LowerPattern tag)
    (h : ElementAtStart tag s attrs inner post) : ∃ cap, tagPatternAt tag s = some cap := by
  obtain ⟨opening, closing, rfl, hop, hn, hcl⟩ := h
  unfold tagPatternAt
  rw [(litMatch_eq_some_iff (lowerPattern_opening htag)).mpr ⟨opening, rfl, hop⟩]
  simp only
  rw [starGreedyNot_at _ (fun s hs => afterGt_none _ s hs) attrs _ hn, afterGt_cons]
  exact starLazyAny_complete [] inner (closing ++ post)
    ((closing_isSome_iff htag).mpr ⟨closing, post, rfl, hcl⟩)

theorem tagSearch_some {tag s cap : JsString} (h : tagSearch tag s = some cap) :
    ∃ pre rest, s = pre ++ rest ∧ tagPatternAt tag rest = some cap ∧
      ∀ pre' rest', s = pre' ++ rest' → pre'.length < pre.length →
        tagPatternAt tag rest' = none := by
  induction s with
  | nil =>
    rw [tagSearch] at h
    exact ⟨[], [], rfl, h, fun _ _ _ hlt => absurd hlt (Nat.not_lt_zero _)⟩
  | cons c cs ih =>
    rw [tagSearch] at h
    cases hp : tagPatternAt tag (c :: cs) with
    | some cap' =>
      rw [hp] at h
      simp only [Option.some.injEq] at h
      subst h
      exact ⟨[], c :: cs, rfl, hp, fun _ _ _ hlt => absurd hlt (Nat.not_lt_zero _)⟩
    | none =>
      rw [hp] at h
      obtain ⟨pre, rest, rfl, hrest, hmin⟩ := ih h
      refine ⟨c :: pre, rest, rfl, hrest, ?_⟩
      intro pre' rest' hEq hlt
      cases pre' with
      | nil =>
        simp only [List.nil_append] at hEq
        rw [← hEq]
        exact hp
      | cons c' p' =>
        simp only [List.cons_append, List.cons.injEq] at hEq
        exact hmin p' rest' hEq.2 (by simpa using hlt)

theorem tagSearch_none {tag s : JsString} (h : tagSearch tag s = none)
    (pre rest : JsString) (hs : s = pre ++ rest) : tagPatternAt tag rest = none := by
  induction s generalizing pre with
  | nil =>
    rw [tagSearch] at h
    have : rest = [] := by
      cases pre with
      | nil => simpa using hs.symm
      | cons _ _ => cases hs
    rw [this]; exact h
  | cons c cs ih =>
    rw [tagSearch] at h
    cases hp : tagPatternAt tag (c :: cs) with
    | some cap' => rw [hp] at h; cases h
    | none =>
      rw [hp] at h
      cases pre with
      | nil =>
        simp only [List.nil_append] at hs
        rw [← hs]; exact hp
      | cons c' p' =>
        simp only [List.cons_append, List.cons.injEq] at hs
        exact ih h p' hs.2

theorem tagSearch_isSome_of_element {tag s pre attrs inner post : JsString}
    (htag : LowerPattern tag) (h : ElementAt tag s pre attrs inner post) :
    ∃ cap, tagSearch tag s = some cap := by
  obtain ⟨rest, hs, hel⟩ := h
  obtain ⟨cap, hcap⟩ := tagPatternAt_complete htag hel
  cases hsearch : tagSearch tag s with
  | some c => exact ⟨c, rfl⟩
  | none =>
    rw [tagSearch_none hsearch pre rest hs] at hcap
    cases hcap

theorem firstElement_of_tagSearch {tag s cap : JsString} (htag : LowerPattern tag)
    (h : tagSearch tag s = some cap) : FirstElement tag s cap := by
  obtain ⟨pre, rest, hs, hrest, hleft⟩ := tagSearch_some h
  obtain ⟨attrs, post, hel, hmin⟩ := tagPatternAt_sound htag hrest
  refine ⟨pre, attrs, post, ⟨rest, hs, hel⟩, ?_⟩
  rintro pre' attrs' inner' post' ⟨rest', hs', hel'⟩
  have hle : pre.length ≤ pre'.length := by
    by_contra hlt
    obtain ⟨c, hc⟩ := tagPatternAt_complete htag hel'
    rw [hleft pre' rest' hs' (Nat.lt_of_not_le hlt)] at hc
    cases hc
  refine ⟨hle, fun hlen => ?_⟩
  have hEq : pre' ++ rest' = pre ++ rest := by rw [← hs', ← hs]
  obtain ⟨-, hr⟩ := List.append_inj hEq hlen
  subst hr
  exact hmin attrs' inner' post' hel'

theorem firstElement_unique {tag s inner₁ inner₂ : JsString}
    (h₁ : FirstElement tag s inner₁) (h₂ : FirstElement tag s inner₂) : inner₁ = inner₂ := by
  obtain ⟨pre₁, attrs₁, post₁, hel₁, hmin₁⟩ := h₁
  obtain ⟨pre₂, attrs₂, post₂, hel₂, hmin₂⟩ := h₂
  obtain ⟨hle₁, hin₁⟩ := hmin₁ pre₂ attrs₂ inner₂ post₂ hel₂
  obtain ⟨hle₂, hin₂⟩ := hmin₂ pre₁ attrs₁ inner₁ post₁ hel₁
  have hpre : pre₁.length = pre₂.length := Nat.le_antisymm hle₁ hle₂
  have hlen : inner₁.length = inner₂.length := Nat.le_antisymm (hin₁ hpre.symm) (hin₂ hpre)
  obtain ⟨rest₁, hs₁, opening₁, closing₁, hr₁, hop₁, hn₁, -⟩ := hel₁
  obtain ⟨rest₂, hs₂, opening₂, closing₂, hr₂, hop₂, hn₂, -⟩ := hel₂
  have hEq : pre₁ ++ rest₁ = pre₂ ++ rest₂ := by rw [← hs₁, ← hs₂]
  obtain ⟨-, hrest⟩ := List.append_inj hEq hpre
  rw [hr₁, hr₂] at hrest
  have hoplen : opening₁.length = opening₂.length := by
    rw [← hop₁.length_eq, ← hop₂.length_eq]
  obtain ⟨-, htail⟩ := List.append_inj hrest hoplen
  obtain ⟨-, hafter⟩ := first_gt_unique hn₁ hn₂ htail
  exact (List.append_inj hafter hlen).1

/-- The search `content.match(/<tag[^>]*>(.*?)<\/tag>/is)` answers with the interior
of the first `tag` element, and with `null` exactly when there is no element. -/
theorem tagSearch_eq_some_iff {tag s inner : JsString} (htag : LowerPattern tag) :
    tagSearch tag s = some inner ↔ FirstElement tag s inner := by
  constructor
  · exact firstElement_of_tagSearch htag
  · intro hfirst
    obtain ⟨pre, attrs, post, hel, -⟩ := id hfirst
    obtain ⟨cap, hcap⟩ := tagSearch_isSome_of_element htag hel
    rw [hcap, firstElement_unique (firstElement_of_tagSearch htag hcap) hfirst]

theorem tagSearch_eq_none_iff {tag s : JsString} (htag : LowerPattern tag) :
    tagSearch tag s = none ↔
      ∀ pre attrs inner post, ¬ ElementAt tag s pre attrs inner post := by
  constructor
  · intro hnone pre attrs inner post hel
    obtain ⟨cap, hcap⟩ := tagSearch_isSome_of_element htag hel
    rw [hnone] at hcap
    cases hcap
  · intro hno
    cases hsearch : tagSearch tag s with
    | none => rfl
    | some cap =>
      obtain ⟨pre, attrs, post, hel, -⟩ := firstElement_of_tagSearch htag hsearch
      exact absurd hel (hno pre attrs cap post)

theorem lowerPattern_title : LowerPattern (js "title") := by
  intro c hc
  have h : c = 116 ∨ c = 105 ∨ c = 116 ∨ c = 108 ∨ c = 101 := by
    simpa [js] using hc
  omega

theorem lowerPattern_h1 : LowerPattern (js "h1") := by
  intro c hc
  have h : c = 104 ∨ c = 49 := by
    simpa [js] using hc
  omega

/-! ### `replace(/<[^>]*>/g, '')` and `trim` -/

theorem exactGt_none (s : JsString) (h : s.head? ≠ some cGT) :
    litMatch false [cGT] s = none := by
  cases s with
  | nil => rfl
  | cons c r =>
    have hc : ¬ (cGT = c) := fun hEq => h (by simp [hEq])
    simp [litMatch, charMatches, hc]

theorem exactGt_cons (r : JsString) : litMatch false [cGT] (cGT :: r) = some r := by
  simp [litMatch, charMatches]

theorem markupAt_tag (attrs r : JsString) (h : cGT ∉ attrs) :
    markupAt (cLT :: (attrs ++ cGT :: r)) = some r := by
  rw [markupAt, if_pos rfl, starGreedyNot_at _ exactGt_none attrs r h, exactGt_cons]

theorem markupAt_none (c : Nat) (cs : JsString) (h : c ≠ cLT ∨ cGT ∉ cs) :
    markupAt (c :: cs) = none := by
  rw [markupAt]
  by_cases hc : c = cLT
  · rw [if_pos hc]
    rcases h with h | h
    · exact absurd hc h
    · exact starGreedyNot_none _ exactGt_none cs h
  · rw [if_neg hc]

theorem stripTagsLoop_fuel (fuel : Nat) (s : JsString) (h : s.length ≤ fuel) :
    stripTagsLoop fuel s = stripTagsLoop s.length s := by
  induction fuel using Nat.strong_induction_on generalizing s with
  | _ fuel ih =>
    cases s with
    | nil => cases fuel <;> rfl
    | cons c cs =>
      cases fuel with
      | zero => simp at h
      | succ n =>
        have hn : cs.length ≤ n := by simpa using h
        simp only [List.length_cons, stripTagsLoop]
        by_cases hm : c = cLT ∧ cGT ∈ cs
        · obtain ⟨rfl, hgt⟩ := hm
          obtain ⟨attrs, r, rfl, hna⟩ := exists_first_gt cs hgt
          rw [markupAt_tag attrs r hna]
          simp only
          have hr : r.length ≤ (attrs ++ cGT :: r).length := by simp; omega
          rw [ih n (Nat.lt_succ_self n) r (Nat.le_trans hr hn),
            ih (attrs ++ cGT :: r).length (Nat.lt_succ_of_le hn) r hr]
        · have hm' : c ≠ cLT ∨ cGT ∉ cs := by
            by_cases hc : c = cLT
            · exact Or.inr (fun hgt => hm ⟨hc, hgt⟩)
            · exact Or.inl hc
          rw [markupAt_none c cs hm']
          simp only
          rw [ih n (Nat.lt_succ_self n) cs hn]

theorem stripTags_nil : stripTags [] = [] := rfl

/-- A tag at the head of the input is dropped up to its first `>`. -/
theorem stripTags_tag (attrs r : JsString) (h : cGT ∉ attrs) :
    stripTags (cLT :: (attrs ++ cGT :: r)) = stripTags r := by
  unfold stripTags
  simp only [List.length_cons, stripTagsLoop, markupAt_tag attrs r h]
  exact stripTagsLoop_fuel _ r (by simp; omega)

/-- A code unit that starts no tag is kept. -/
theorem stripTags_keep (c : Nat) (cs : JsString) (h : c ≠ cLT ∨ cGT ∉ cs) :
    stripTags (c :: cs) = c :: stripTags cs := by
  unfold stripTags
  simp only [List.length_cons, stripTagsLoop, markupAt_none c cs h]

theorem stripTags_subset (s : JsString) : ∀ c, c ∈ stripTags s → c ∈ s := by
  generalize hlen : s.length = n
  induction n using Nat.strong_induction_on generalizing s with
  | _ n ih =>
    cases s with
    | nil => intro c hc; rw [stripTags_nil] at hc; cases hc
    | cons a cs =>
      intro c hc
      by_cases hm : a = cLT ∧ cGT ∈ cs
      · obtain ⟨rfl, hgt⟩ := hm
        obtain ⟨attrs, r, rfl, hna⟩ := exists_first_gt cs hgt
        rw [stripTags_tag attrs r hna] at hc
        have hr := ih r.length (by rw [← hlen]; simp; omega) r rfl c hc
        simp [hr]
      · have hm' : a ≠ cLT ∨ cGT ∉ cs := by
          by_cases hc : a = cLT
          · exact Or.inr (fun hgt => hm ⟨hc, hgt⟩)
          · exact Or.inl hc
        rw [stripTags_keep a cs hm'] at hc
        rcases List.mem_cons.mp hc with rfl | hc'
        · simp
        · exact List.mem_cons_of_mem a (ih cs.length (by rw [← hlen]; simp) cs rfl c hc')

/-- After the replacement no `<` is followed, anywhere further on, by a `>`: no
substring `<...>` is left. -/
theorem stripTags_no_markup (s a rest : JsString) (h : stripTags s = a ++ cLT :: rest) :
    cGT ∉ rest := by
  generalize hlen : s.length = n
  induction n using Nat.strong_induction_on generalizing s a with
  | _ n ih =>
    cases s with
    | nil =>
      rw [stripTags_nil] at h
      cases a <;> cases h
    | cons c cs =>
      by_cases hm : c = cLT ∧ cGT ∈ cs
      · obtain ⟨rfl, hgt⟩ := hm
        obtain ⟨attrs, r, rfl, hna⟩ := exists_first_gt cs hgt
        rw [stripTags_tag attrs r hna] at h
        exact ih r.length (by rw [← hlen]; simp; omega) r a h rfl
      · have hm' : c ≠ cLT ∨ cGT ∉ cs := by
          by_cases hc : c = cLT
          · exact Or.inr (fun hgt => hm ⟨hc, hgt⟩)
          · exact Or.inl hc
        rw [stripTags_keep c cs hm'] at h
        cases a with
        | nil =>
          simp only [List.nil_append, List.cons.injEq] at h
          obtain ⟨hc, hrest⟩ := h
          have hno : cGT ∉ cs := by
            rcases hm' with h1 | h1
            · exact absurd hc h1
            · exact h1
          intro hgt
          rw [← hrest] at hgt
          exact hno (stripTags_subset cs cGT hgt)
        | cons a0 a' =>
          simp only [List.cons_append, List.cons.injEq] at h
          exact ih cs.length (by rw [← hlen]; simp) cs a' h.2 rfl

theorem trim_head (s : JsString) (c : Nat) (h : (trim s).head? = some c) :
    isWhiteSpace c = false := by
  unfold trim at h
  have hsuf : (List.dropWhile isWhiteSpace (List.dropWhile isWhiteSpace s).reverse).reverse <+:
      List.dropWhile isWhiteSpace s := by
    rw [← List.reverse_suffix, List.reverse_reverse]
    exact List.dropWhile_suffix _
  obtain ⟨t, ht⟩ := hsuf
  have hhead := List.head?_dropWhile_not isWhiteSpace s
  rw [← ht, List.head?_append, h] at hhead
  simpa using hhead

theorem trim_last (s : JsString) (c : Nat) (h : (trim s).getLast? = some c) :
    isWhiteSpace c = false := by
  unfold trim at h
  rw [List.getLast?_reverse] at h
  have hhead := List.head?_dropWhile_not isWhiteSpace (List.dropWhile isWhiteSpace s).reverse
  rw [h] at hhead
  exact hhead

theorem trim_subset (s : JsString) : ∀ c, c ∈ trim s → c ∈ s := by
  intro c hc
  unfold trim at hc
  rw [List.mem_reverse] at hc
  have h1 := (List.dropWhile_sublist isWhiteSpace).subset hc
  rw [List.mem_reverse] at h1
  exact (List.dropWhile_sublist isWhiteSpace).subset h1

/-! ### What `trim` and the tag replacement compute -/

theorem dropWhile_cons_neg {p : Nat → Bool} {c : Nat} (cs : JsString) (h : p c = false) :
    List.dropWhile p (c :: cs) = c :: cs := by
  rw [List.dropWhile_cons, if_neg (by simp [h])]

theorem trim_isTrimOf (s : JsString) : IsTrimOf s (trim s) := by
  refine ⟨?_, trim_head s, trim_last s⟩
  refine ⟨s.takeWhile isWhiteSpace,
    ((s.dropWhile isWhiteSpace).reverse.takeWhile isWhiteSpace).reverse, ?_,
    fun c hc => List.mem_takeWhile_imp hc,
    fun c hc => List.mem_takeWhile_imp (List.mem_reverse.mp hc)⟩
  have h1 := List.takeWhile_append_dropWhile isWhiteSpace (s.dropWhile isWhiteSpace).reverse
  have h2 := congrArg List.reverse h1
  rw [List.reverse_append, List.reverse_reverse] at h2
  unfold trim
  rw [h2, List.takeWhile_append_dropWhile]

theorem isTrimOf_unique {s t : JsString} (h : IsTrimOf s t) : t = trim s := by
  obtain ⟨⟨l, r, rfl, hl, hr⟩, hhead, hlast⟩ := h
  unfold trim
  rw [List.dropWhile_append_of_pos hl]
  rcases List.eq_nil_or_concat t with rfl | ⟨ti, d, h0⟩
  · rw [List.nil_append, List.dropWhile_eq_nil_iff.mpr hr]
    rfl
  · rw [List.concat_eq_append] at h0
    subst h0
    have hd : isWhiteSpace d = false := hlast d (by simp)
    cases ti with
    | nil =>
      rw [List.nil_append, List.singleton_append, dropWhile_cons_neg _ hd]
      rw [List.reverse_cons, List.dropWhile_append_of_pos
        (fun c hc => hr c (List.mem_reverse.mp hc)), dropWhile_cons_neg _ hd]
      rfl
    | cons c ti' =>
      have hc : isWhiteSpace c = false := hhead c (by simp)
      rw [List.cons_append, List.cons_append, dropWhile_cons_neg _ hc]
      have hrev : (c :: (ti' ++ [d] ++ r)).reverse = r.reverse ++ d :: (c :: ti').reverse := by
        simp
      rw [hrev, List.dropWhile_append_of_pos (fun x hx => hr x (List.mem_reverse.mp hx)),
        dropWhile_cons_neg _ hd]
      simp

theorem stripTags_of_noMarkup {s : JsString} (h : NoMarkup s) : stripTags s = s := by
  induction s with
  | nil => rfl
  | cons c cs ih =>
    have hkeep : c ≠ cLT ∨ cGT ∉ cs := by
      by_cases hc : c = cLT
      · exact Or.inr (h [] cs (by rw [hc]; rfl))
      · exact Or.inl hc
    rw [stripTags_keep c cs hkeep, ih (fun a rest hEq => h (c :: a) rest (by rw [hEq]; rfl))]

theorem stripTags_text_append (t m : JsString) (h : cLT ∉ t) :
    stripTags (t ++ m) = t ++ stripTags m := by
  induction t with
  | nil => rfl
  | cons c cs ih =>
    have hc : c ≠ cLT := fun hEq => h (by simp [hEq])
    rw [List.cons_append, stripTags_keep c _ (Or.inl hc),
      ih (fun hm => h (List.mem_cons_of_mem c hm))]
    rfl

theorem stripsTo_unique {s out : JsString} (h : StripsTo s out) : out = stripTags s := by
  induction h with
  | text t hno => exact (stripTags_of_noMarkup hno).symm
  | tag t attrs r out hlt hgt _ ih =>
    rw [stripTags_text_append t _ hlt, stripTags_tag attrs r hgt, ih]

theorem exists_first_mem (x : Nat) (s : JsString) (h : x ∈ s) :
    ∃ a r, s = a ++ x :: r ∧ x ∉ a := by
  induction s with
  | nil => cases h
  | cons c cs ih =>
    by_cases hc : c = x
    · exact ⟨[], cs, by simp [hc], by simp⟩
    · have hcs : x ∈ cs := by
        rcases List.mem_cons.mp h with h1 | h1
        · exact absurd h1.symm hc
        · exact h1
      obtain ⟨a, r, rfl, hn⟩ := ih hcs
      refine ⟨c :: a, r, rfl, ?_⟩
      intro hm
      rcases List.mem_cons.mp hm with h1 | h1
      · exact hc h1.symm
      · exact hn h1

theorem noMarkup_of_no_gt_after {t rest : JsString} (ht : cLT ∉ t) (hrest : cGT ∉ rest) :
    NoMarkup (t ++ cLT :: rest) := by
  intro a rest' hEq hgt
  induction t generalizing a with
  | nil =>
    cases a with
    | nil =>
      simp only [List.nil_append, List.cons.injEq, true_and] at hEq
      exact hrest (hEq ▸ hgt)
    | cons c a' =>
      simp only [List.nil_append, List.cons_append, List.cons.injEq] at hEq
      apply hrest
      rw [hEq.2]
      simp [hgt]
  | cons c cs ih =>
    cases a with
    | nil =>
      simp only [List.nil_append, List.cons_append, List.cons.injEq] at hEq
      exact ht (by simp [hEq.1])
    | cons c' a' =>
      simp only [List.cons_append, List.cons.injEq] at hEq
      exact ih (fun hm => ht (List.mem_cons_of_mem c hm)) a' hEq.2

theorem stripTags_stripsTo (s : JsString) : StripsTo s (stripTags s) := by
  generalize hlen : s.length = n
  induction n using Nat.strong_induction_on generalizing s with
  | _ n ih =>
    by_cases hlt : cLT ∈ s
    · obtain ⟨t, rest, rfl, ht⟩ := exists_first_mem cLT s hlt
      by_cases hgt : cGT ∈ rest
      · obtain ⟨attrs, r, rfl, ha⟩ := exists_first_gt rest hgt
        rw [stripTags_text_append t _ ht, stripTags_tag attrs r ha]
        exact StripsTo.tag t attrs r _ ht ha
          (ih r.length (by rw [← hlen]; simp; omega) r rfl)
      · have hno := noMarkup_of_no_gt_after ht hgt
        rw [stripTags_of_noMarkup hno]
        exact StripsTo.text _ hno
    · have hno : NoMarkup s := by
        intro a rest hEq
        exact absurd (by rw [hEq]; simp) hlt
      rw [stripTags_of_noMarkup hno]
      exact StripsTo.text _ hno

/-! ### What `path.parse(..).name` computes -/

theorem exists_last_mem (x : Nat) (s : JsString) (h : x ∈ s) :
    ∃ a r, s = a ++ x :: r ∧ x ∉ r := by
  obtain ⟨a, r, hEq, hn⟩ := exists_first_mem x s.reverse (List.mem_reverse.mpr h)
  refine ⟨r.reverse, a.reverse, ?_, fun hm => hn (List.mem_reverse.mp hm)⟩
  have := congrArg List.reverse hEq
  simpa using this

theorem contains_eq_false_of_not_mem {x : Nat} {s : JsString} (h : x ∉ s) :
    s.contains x = false := by
  cases hc : s.contains x with
  | false => rfl
  | true => exact absurd (by simpa using hc) h

theorem contains_eq_true_of_mem {x : Nat} {s : JsString} (h : x ∈ s) :
    s.contains x = true := by
  simpa using h

theorem nameOfBase_of_no_dot {base : JsString} (u : Bool) (h : cDot ∉ base) :
    nameOfBase base u = base := by
  have hc : base.reverse.contains cDot = false :=
    contains_eq_false_of_not_mem (fun hm => h (List.mem_reverse.mp hm))
  unfold nameOfBase
  dsimp only
  rw [if_pos (by rw [hc]; simp)]

theorem nameOfBase_of_split (n e : JsString) (u : Bool) (he : cDot ∉ e) :
    nameOfBase (n ++ cDot :: e) u =
      if n = [] then n ++ cDot :: e
      else if n ++ cDot :: e = [cDot, cDot] ∧ u = false then n ++ cDot :: e else n := by
  have hrev : (n ++ cDot :: e).reverse = e.reverse ++ cDot :: n.reverse := by simp
  have hcontains : (n ++ cDot :: e).reverse.contains cDot = true :=
    contains_eq_true_of_mem (by simp)
  have hdrop : List.dropWhile (fun c => c != cDot) (e.reverse ++ cDot :: n.reverse) =
      cDot :: n.reverse := by
    rw [List.dropWhile_append_of_pos, dropWhile_cons_neg _ (by simp)]
    intro c hc
    have : c ≠ cDot := fun hEq => he (hEq ▸ List.mem_reverse.mp hc)
    simpa using this
  unfold nameOfBase
  dsimp only
  rw [if_neg (by rw [hcontains]; simp), hrev, hdrop]
  simp only [List.drop_succ_cons, List.drop_zero, List.reverse_reverse]

theorem extension_exists (dir base : JsString) (u : Bool) (hu : u = true ↔ dir = [cSlash]) :
    ∃ ext, IsExtensionOf dir base ext ∧ base = nameOfBase base u ++ ext := by
  by_cases hdot : cDot ∈ base
  · obtain ⟨n, e, rfl, he⟩ := exists_last_mem cDot base hdot
    rw [nameOfBase_of_split n e u he]
    by_cases hn : n = []
    · subst hn
      exact ⟨[], Or.inl ⟨rfl, Or.inr (Or.inl ⟨e, rfl, he⟩)⟩, by simp⟩
    · rw [if_neg hn]
      by_cases hq : n ++ cDot :: e = [cDot, cDot] ∧ u = false
      · rw [if_pos hq]
        refine ⟨[], Or.inl ⟨rfl, Or.inr (Or.inr ⟨hq.1, ?_⟩)⟩, by simp⟩
        intro hd
        have := hu.mpr hd
        rw [hq.2] at this
        cases this
      · rw [if_neg hq]
        refine ⟨cDot :: e, Or.inr ⟨n, e, rfl, hn, he, rfl, ?_⟩, rfl⟩
        rintro ⟨hb, hd⟩
        apply hq
        refine ⟨hb, ?_⟩
        cases hub : u with
        | false => rfl
        | true => exact absurd (hu.mp hub) hd
  · exact ⟨[], Or.inl ⟨rfl, Or.inl hdot⟩, by rw [nameOfBase_of_no_dot u hdot]; simp⟩

theorem last_dot_unique {n n' e e' : JsString} (he : cDot ∉ e) (he' : cDot ∉ e')
    (h : n ++ cDot :: e = n' ++ cDot :: e') : n = n' ∧ e = e' := by
  have hrev := congrArg List.reverse h
  simp only [List.reverse_append, List.reverse_cons, List.append_assoc, List.singleton_append]
    at hrev
  have key : ∀ (a a' r r' : JsString), cDot ∉ a → cDot ∉ a' →
      a ++ cDot :: r = a' ++ cDot :: r' → a = a' ∧ r = r' := by
    intro a
    induction a with
    | nil =>
      intro a' r r' _ ha' hEq
      cases a' with
      | nil => simpa using hEq
      | cons c cs =>
        simp only [List.nil_append, List.cons_append, List.cons.injEq] at hEq
        exact absurd (by simp [← hEq.1]) ha'
    | cons c cs ih =>
      intro a' r r' ha ha' hEq
      cases a' with
      | nil =>
        simp only [List.nil_append, List.cons_append, List.cons.injEq] at hEq
        exact absurd (by simp [hEq.1]) ha
      | cons c' cs' =>
        simp only [List.cons_append, List.cons.injEq] at hEq
        obtain ⟨h1, h2⟩ := ih cs' r r' (fun hm => ha (List.mem_cons_of_mem c hm))
          (fun hm => ha' (List.mem_cons_of_mem c' hm)) hEq.2
        exact ⟨by rw [hEq.1, h1], h2⟩
  obtain ⟨h1, h2⟩ := key e.reverse e'.reverse n.reverse n'.reverse
    (fun hm => he (List.mem_reverse.mp hm)) (fun hm => he' (List.mem_reverse.mp hm)) hrev
  exact ⟨List.reverse_injective h2, List.reverse_injective h1⟩

theorem extension_unique {dir base ext name : JsString} {u : Bool}
    (hu : u = true ↔ dir = [cSlash]) (hext : IsExtensionOf dir base ext)
    (hname : base = name ++ ext) : name = nameOfBase base u := by
  rcases hext with ⟨rfl, hcase⟩ | ⟨n, e, hb, hn, he, rfl, hq⟩
  · rw [List.append_nil] at hname
    subst hname
    rcases hcase with hno | ⟨e, hb, he⟩ | ⟨hb, hd⟩
    · exact (nameOfBase_of_no_dot u hno).symm
    · have := nameOfBase_of_split [] e u he
      rw [if_pos rfl, List.nil_append] at this
      rw [hb, this]
    · have hsplit := nameOfBase_of_split [cDot] [] u (by simp)
      have hu' : u = false := by
        cases hub : u with
        | false => rfl
        | true => exact absurd (hu.mp hub) hd
      rw [if_neg (by simp), if_pos ⟨rfl, hu'⟩] at hsplit
      rw [hb]
      exact hsplit.symm
  · have hcancel : name = n := by
      have : name ++ cDot :: e = n ++ cDot :: e := by rw [← hname, hb]
      exact List.append_cancel_right this
    rw [hcancel, hb, nameOfBase_of_split n e u he, if_neg hn, if_neg]
    rintro ⟨hb2, hu2⟩
    apply hq
    refine ⟨by rw [hb]; exact hb2, ?_⟩
    intro hd
    have := hu.mpr hd
    rw [hu2] at this
    cases this

theorem dropWhile_trailing (front : JsString) {base trail : JsString}
    (htrail : ∀ c, c ∈ trail → c = cSlash) (hne : base ≠ []) (hbase : cSlash ∉ base) :
    List.dropWhile (fun c => c == cSlash) (front ++ (base ++ trail)).reverse =
      base.reverse ++ front.reverse := by
  have hrev : (front ++ (base ++ trail)).reverse =
      trail.reverse ++ (base.reverse ++ front.reverse) := by simp
  rw [hrev, List.dropWhile_append_of_pos
    (fun c hc => by simpa using htrail c (List.mem_reverse.mp hc))]
  rcases List.eq_nil_or_concat base with h0 | ⟨bi, d, h0⟩
  · exact absurd h0 hne
  · rw [List.concat_eq_append] at h0
    subst h0
    have hd : d ≠ cSlash := fun hEq => hbase (by simp [hEq])
    simp only [List.reverse_append, List.reverse_cons, List.reverse_nil, List.nil_append,
      List.singleton_append, List.cons_append]
    exact dropWhile_cons_neg _ (by simpa using hd)

theorem lastComponent_parse {p dir base : JsString} (h : IsLastComponent p dir base) :
    parseBase p = base ∧ (baseUnderRoot p = true ↔ dir = [cSlash]) := by
  obtain ⟨trail, rfl, htrail, hne, hbase, hdir⟩ := h
  have hall : ∀ c, c ∈ base.reverse → (fun c => c != cSlash) c = true := by
    intro c hc
    have : c ≠ cSlash := fun hEq => hbase (hEq ▸ List.mem_reverse.mp hc)
    simpa using this
  constructor
  · unfold parseBase
    rw [dropWhile_trailing dir htrail hne hbase, List.takeWhile_append_of_pos hall]
    rcases hdir with rfl | hlast
    · simp
    · obtain ⟨di, rfl⟩ := List.getLast?_eq_some_iff.mp hlast
      simp [List.takeWhile_cons]
  · obtain ⟨b0, bs, rfl⟩ : ∃ b0 bs, base = b0 :: bs := by
      cases base with
      | nil => exact absurd rfl hne
      | cons b0 bs => exact ⟨b0, bs, rfl⟩
    have hb0 : b0 ≠ cSlash := fun hEq => hbase (by simp [hEq])
    rcases hdir with rfl | hlast
    · constructor
      · intro hu
        unfold baseUnderRoot at hu
        simp [hb0] at hu
      · intro hd
        cases hd
    · obtain ⟨di, rfl⟩ := List.getLast?_eq_some_iff.mp hlast
      cases di with
      | nil =>
        refine ⟨fun _ => rfl, fun _ => ?_⟩
        unfold baseUnderRoot
        have hdrop := dropWhile_trailing [] htrail hne hbase
        simp only [List.nil_append, List.reverse_nil, List.append_nil] at hdrop
        simp only [List.nil_append, List.singleton_append, List.head?_cons, beq_self_eq_true,
          List.drop_succ_cons, List.drop_zero, hdrop, Bool.true_and]
        rw [contains_eq_false_of_not_mem (fun hm => hbase (List.mem_reverse.mp hm))]
        rfl
      | cons c d' =>
        constructor
        · intro hu
          exfalso
          unfold baseUnderRoot at hu
          by_cases hc : c = cSlash
          · subst hc
            have hdrop := dropWhile_trailing (d' ++ [cSlash]) htrail hne hbase
            simp only [List.cons_append, List.head?_cons, beq_self_eq_true, List.drop_succ_cons,
              List.drop_zero, Bool.true_and, Bool.not_eq_true', List.append_assoc,
              List.singleton_append, List.nil_append] at hu hdrop
            rw [hdrop, contains_eq_true_of_mem (by simp)] at hu
            cases hu
          · simp [hc] at hu
        · intro hd
          simp at hd

theorem lastComponent_exists (p : JsString) (h : ¬ ∀ c, c ∈ p → c = cSlash) :
    ∃ dir base, IsLastComponent p dir base := by
  have h1 := List.takeWhile_append_dropWhile (fun c => c == cSlash) p.reverse
  have h2 := List.takeWhile_append_dropWhile (fun c => c != cSlash)
    (List.dropWhile (fun c => c == cSlash) p.reverse)
  refine ⟨(List.dropWhile (fun c => c != cSlash)
      (List.dropWhile (fun c => c == cSlash) p.reverse)).reverse,
    (List.takeWhile (fun c => c != cSlash)
      (List.dropWhile (fun c => c == cSlash) p.reverse)).reverse,
    (List.takeWhile (fun c => c == cSlash) p.reverse).reverse, ?_, ?_, ?_, ?_, ?_⟩
  · have hp : p = (List.dropWhile (fun c => c == cSlash) p.reverse).reverse ++
        (List.takeWhile (fun c => c == cSlash) p.reverse).reverse := by
      rw [← List.reverse_append, h1, List.reverse_reverse]
    have hd : (List.dropWhile (fun c => c == cSlash) p.reverse).reverse =
        (List.dropWhile (fun c => c != cSlash)
          (List.dropWhile (fun c => c == cSlash) p.reverse)).reverse ++
        (List.takeWhile (fun c => c != cSlash)
          (List.dropWhile (fun c => c == cSlash) p.reverse)).reverse := by
      rw [← List.reverse_append, h2]
    rw [← List.append_assoc, ← hd]
    exact hp
  · intro c hc
    simpa using List.mem_takeWhile_imp (List.mem_reverse.mp hc)
  · intro hnil
    apply h
    have hd : List.dropWhile (fun c => c == cSlash) p.reverse = [] := by
      cases hdw : List.dropWhile (fun c => c == cSlash) p.reverse with
      | nil => rfl
      | cons x xs =>
        have hx := List.head?_dropWhile_not (fun c => c == cSlash) p.reverse
        rw [hdw] at hx hnil
        simp only [List.head?_cons] at hx
        rw [List.reverse_eq_nil_iff, List.takeWhile_cons, if_pos (by simpa using hx)] at hnil
        cases hnil
    intro c hc
    have := List.dropWhile_eq_nil_iff.mp hd c (List.mem_reverse.mpr hc)
    simpa using this
  · intro hm
    have := List.mem_takeWhile_imp (List.mem_reverse.mp hm)
    simp at this
  · cases hdw : List.dropWhile (fun c => c != cSlash)
        (List.dropWhile (fun c => c == cSlash) p.reverse) with
    | nil => exact Or.inl rfl
    | cons x xs =>
      right
      have hx := List.head?_dropWhile_not (fun c => c != cSlash)
        (List.dropWhile (fun c => c == cSlash) p.reverse)
      rw [hdw] at hx
      simp only [List.head?_cons, bne_eq_false_iff_eq] at hx
      rw [List.reverse_cons, List.getLast?_concat, hx]

theorem parseName_of_slashes {p : JsString} (h : ∀ c, c ∈ p → c = cSlash) :
    parseName p = [] := by
  have hb : parseBase p = [] := by
    unfold parseBase
    rw [List.dropWhile_eq_nil_iff.mpr
      (fun c hc => by simpa using h c (List.mem_reverse.mp hc))]
    rfl
  unfold parseName
  rw [hb]
  exact nameOfBase_of_no_dot _ (by simp)

/-- The name `path.parse` reports is the base name without its extension. -/
theorem parseName_isNameOf (p : JsString) : IsNameOf p (parseName p) := by
  by_cases h : ∀ c, c ∈ p → c = cSlash
  · exact Or.inl ⟨parseName_of_slashes h, h⟩
  · obtain ⟨dir, base, hlc⟩ := lastComponent_exists p h
    obtain ⟨hb, hu⟩ := lastComponent_parse hlc
    obtain ⟨ext, hext, hEq⟩ := extension_exists dir base (baseUnderRoot p) hu
    refine Or.inr ⟨dir, base, ext, hlc, hext, ?_⟩
    unfold parseName
    rw [hb]
    exact hEq

theorem isNameOf_unique {p name : JsString} (h : IsNameOf p name) : name = parseName p := by
  rcases h with ⟨rfl, hall⟩ | ⟨dir, base, ext, hlc, hext, hEq⟩
  · exact (parseName_of_slashes hall).symm
  · obtain ⟨hb, hu⟩ := lastComponent_parse hlc
    unfold parseName
    rw [hb]
    exact extension_unique hu hext hEq

/-! ### `path.parse(..).name` of a `*.html` name -/

theorem js_html : js ".html" = [46, 104, 116, 109, 108] := by decide

theorem parseBase_html (stem : JsString) :
    parseBase (stem ++ js ".html") = lastSegment stem ++ js ".html" := by
  rw [js_html]
  simp [parseBase, lastSegment, cSlash, List.dropWhile_cons, List.takeWhile_cons]

theorem parseName_html (stem : JsString) :
    parseName (stem ++ js ".html") =
      if lastSegment stem = [] then js ".html" else lastSegment stem := by
  unfold parseName nameOfBase
  rw [parseBase_html, js_html]
  by_cases hx : lastSegment stem = []
  · rw [hx]
    simp [cDot, List.dropWhile_cons]
  · rw [if_neg hx]
    have hlen : lastSegment stem ++ [46, 104, 116, 109, 108] ≠ [46, 46] := by
      intro hEq
      have := congrArg List.length hEq
      simp at this
    simp [cDot, List.dropWhile_cons, hx, hlen]

theorem parseName_html_ne_nil (stem : JsString) : parseName (stem ++ js ".html") ≠ [] := by
  rw [parseName_html]
  split
  · decide
  · assumption

theorem lastSegment_basename {stem : JsString} (h : cSlash ∉ stem) : lastSegment stem = stem := by
  unfold lastSegment
  rw [List.takeWhile_eq_self_iff.mpr, List.reverse_reverse]
  intro c hc
  have hc' : c ∈ stem := List.mem_reverse.mp hc
  have : c ≠ cSlash := fun hEq => h (hEq ▸ hc')
  simpa using this

theorem parseName_html_basename {stem : JsString} (h : IsBasename stem) :
    parseName (stem ++ js ".html") = stem := by
  rw [parseName_html, lastSegment_basename h.2, if_neg h.1]

theorem endsWith_html {file : JsString} (h : endsWith file (js ".html") = true) :
    ∃ stem, file = stem ++ js ".html" := by
  unfold endsWith at h
  obtain ⟨stem, hstem⟩ := List.isSuffixOf_iff_suffix.mp h
  exact ⟨stem, hstem.symm⟩

/-! ### `getTitle` -/

theorem getTitle_of_title {content inner : JsString}
    (h : tagSearch (js "title") content = some inner) (filename : JsString) :
    getTitle content filename = trim (stripTags inner) := by
  unfold getTitle
  rw [h]

theorem getTitle_of_h1 {content inner : JsString}
    (ht : tagSearch (js "title") content = none)
    (h : tagSearch (js "h1") content = some inner) (filename : JsString) :
    getTitle content filename = trim (stripHashes (stripTags inner)) := by
  unfold getTitle
  rw [ht, h]

theorem getTitle_of_neither {content : JsString}
    (ht : tagSearch (js "title") content = none)
    (h : tagSearch (js "h1") content = none) (filename : JsString) :
    getTitle content filename = dashesToSpaces (parseName filename) := by
  unfold getTitle
  rw [ht, h]

theorem sameIgnoringCase_refl (p : JsString) : SameIgnoringCase p p := by
  induction p with
  | nil => exact List.Forall₂.nil
  | cons c cs ih => exact List.Forall₂.cons (Or.inl rfl) ih

theorem sameIgnoringCase_of_litMatch {p m : JsString} (hp : LowerPattern p)
    (h : litMatch true p m = some []) : SameIgnoringCase p m := by
  obtain ⟨m', hm, hsame⟩ := (litMatch_eq_some_iff hp).mp h
  rw [List.append_nil] at hm
  rw [hm]
  exact hsame

/-- C1: when the content holds a `<title ...>...</title>` element (tags matched up to
case, any code units inside, line breaks included), `getTitle` returns, for every
filename, the interior of the first such element with every `<...>` tag removed
and then the white space at both ends removed, whatever that gives (the empty
string included).  The result is the only string obtained in this way, it is the
same for every filename and for every content with the same first `<title>`
interior (so it does not depend on an `<h1>`), and no `<...>` substring is left
before trimming. -/
theorem getTitle_title_element (content filename pre attrs inner₀ post : JsString)
    (h : ElementAt (js "title") content pre attrs inner₀ post) :
    ∃ inner stripped, FirstElement (js "title") content inner ∧
      (∀ inner', FirstElement (js "title") content inner' → inner' = inner) ∧
      StripsTo inner stripped ∧
      IsTrimOf stripped (getTitle content filename) ∧
      (∀ stripped' title', StripsTo inner stripped' → IsTrimOf stripped' title' →
        title' = getTitle content filename) ∧
      getTitle content filename = trim (stripTags inner) ∧
      (∀ filename', getTitle content filename' = getTitle content filename) ∧
      (∀ content' filename', FirstElement (js "title") content' inner →
        getTitle content' filename' = getTitle content filename) ∧
      (∀ a rest, stripped = a ++ cLT :: rest → cGT ∉ rest) := by
  obtain ⟨inner, hinner⟩ := tagSearch_isSome_of_element lowerPattern_title h
  have hfirst₀ := firstElement_of_tagSearch lowerPattern_title hinner
  have hEq := getTitle_of_title hinner filename
  refine ⟨inner, stripTags inner, hfirst₀, fun inner' h' => firstElement_unique h' hfirst₀,
    stripTags_stripsTo inner, ?_, ?_, hEq, fun filename' => ?_,
    fun content' filename' hfirst => ?_,
    fun a rest hsplit => stripTags_no_markup inner a rest hsplit⟩
  · rw [hEq]
    exact trim_isTrimOf _
  · intro stripped' title' hs ht
    rw [hEq, isTrimOf_unique ht, stripsTo_unique hs]
  · rw [getTitle_of_title hinner, getTitle_of_title hinner]
  · rw [getTitle_of_title ((tagSearch_eq_some_iff lowerPattern_title).mpr hfirst),
      getTitle_of_title hinner]

theorem richTitleContent_element :
    ElementAt (js "title") richTitleContent [] (js " lang=en") richTitleInner
      (js "<h1>Other</h1>") :=
  ⟨richTitleContent, rfl, js "<TITLE", js "</tItLe>", by decide,
    sameIgnoringCase_of_litMatch (lowerPattern_opening lowerPattern_title) (by decide),
    by decide,
    sameIgnoringCase_of_litMatch (lowerPattern_closing lowerPattern_title) (by decide)⟩

/-- C1, at the content `<TITLE lang=en>`, line break, `  He<b>ll</b>o <i`, line break,
`>World</I> </tItLe><h1>Other</h1>`: the title is `Hello World`; at the content
`<title>Hello</title><h1>Other</h1>` it is `Hello`; at a `<title>` holding only
white space and an empty tag it is the empty string; and at `spacedTitleContent`
every kind of white space is removed at both ends and nothing else. -/
theorem getTitle_title_element_witness :
    ElementAt (js "title") richTitleContent [] (js " lang=en") richTitleInner
      (js "<h1>Other</h1>") ∧
    (∃ inner stripped, FirstElement (js "title") richTitleContent inner ∧
      StripsTo inner stripped ∧
      IsTrimOf stripped (getTitle richTitleContent (js "post.html")) ∧
      (∀ stripped' title', StripsTo inner stripped' → IsTrimOf stripped' title' →
        title' = getTitle richTitleContent (js "post.html"))) ∧
    getTitle richTitleContent (js "post.html") = js "Hello World" ∧
    getTitle helloContent (js "post.html") = js "Hello" ∧
    getTitle (js "<title> <b></b> </title><h1>Other</h1>") (js "post.html") = [] ∧
    getTitle spacedTitleContent (js "post.html") =
      8191 :: 8203 :: 133 :: js "T" ++ [6158] := by
  refine ⟨richTitleContent_element, ?_, by decide, by decide, by decide, by decide⟩
  obtain ⟨inner, stripped, h1, -, h3, h4, h5, -⟩ :=
    getTitle_title_element richTitleContent (js "post.html") [] (js " lang=en") richTitleInner
      (js "<h1>Other</h1>") richTitleContent_element
  exact ⟨inner, stripped, h1, h3, h4, h5⟩

theorem not_mem_stripHashes (s : JsString) : cHash ∉ stripHashes s := by
  intro h
  unfold stripHashes at h
  have := (List.mem_filter.mp h).2
  simp at this

/-- C5: when the content holds no `<title>` element but an `<h1 ...>...</h1>` element
(tags matched up to case), `getTitle` returns, for every filename, the interior of
the first such element with every `<...>` tag removed, then every `#` removed,
then the white space at both ends removed; the result is the only string obtained
in this way, it holds no `#` and neither starts nor ends with white space. -/
theorem getTitle_h1_element (content filename pre attrs inner₀ post : JsString)
    (hTitle : ∀ pre' attrs' inner' post', ¬ ElementAt (js "title") content pre' attrs' inner' post')
    (h : ElementAt (js "h1") content pre attrs inner₀ post) :
    ∃ inner stripped, FirstElement (js "h1") content inner ∧
      (∀ inner', FirstElement (js "h1") content inner' → inner' = inner) ∧
      StripsTo inner stripped ∧
      IsTrimOf (stripped.filter (fun c => c != cHash)) (getTitle content filename) ∧
      (∀ stripped' title', StripsTo inner stripped' →
        IsTrimOf (stripped'.filter (fun c => c != cHash)) title' →
        title' = getTitle content filename) ∧
      getTitle content filename = trim (stripHashes (stripTags inner)) ∧
      cHash ∉ getTitle content filename ∧
      (∀ c, (getTitle content filename).head? = some c → isWhiteSpace c = false) ∧
      (∀ c, (getTitle content filename).getLast? = some c → isWhiteSpace c = false) := by
  have ht := (tagSearch_eq_none_iff lowerPattern_title).mpr hTitle
  obtain ⟨inner, hinner⟩ := tagSearch_isSome_of_element lowerPattern_h1 h
  have hEq := getTitle_of_h1 ht hinner filename
  have hfirst₀ := firstElement_of_tagSearch lowerPattern_h1 hinner
  refine ⟨inner, stripTags inner, hfirst₀, fun inner' h' => firstElement_unique h' hfirst₀,
    stripTags_stripsTo inner, ?_, ?_, hEq, ?_, ?_, ?_⟩
  · rw [hEq]
    exact trim_isTrimOf _
  · intro stripped' title' hs ht'
    rw [hEq, isTrimOf_unique ht', stripsTo_unique hs]
    rfl
  · rw [hEq]
    exact fun hmem => not_mem_stripHashes _ (trim_subset _ _ hmem)
  · rw [hEq]
    exact trim_head _
  · rw [hEq]
    exact trim_last _

theorem richHeadingContent_no_title (pre attrs inner post : JsString) :
    ¬ ElementAt (js "title") richHeadingContent pre attrs inner post :=
  (tagSearch_eq_none_iff lowerPattern_title).mp (by decide) pre attrs inner post

theorem richHeadingContent_element :
    ElementAt (js "h1") richHeadingContent (js "<p>intro</p>") (js " id=top")
      richHeadingInner [] :=
  ⟨js "<H1 id=top>" ++ (richHeadingInner ++ js "</h1>"), rfl, js "<H1", js "</h1>",
    by decide,
    sameIgnoringCase_of_litMatch (lowerPattern_opening lowerPattern_h1) (by decide),
    by decide,
    sameIgnoringCase_of_litMatch (lowerPattern_closing lowerPattern_h1) (by decide)⟩

/-- C5, at the content `<p>intro</p><H1 id=top>## My <em>Post</em> #`, line break,
`</h1>`: the title is `My Post`; at the content `<h1># My Post</h1>` it is
`My Post` too; and at `<h1>`, TAB, NBSP, `#a# <i>b</i>#`, U+3000, `</h1>` it is
`a b`. -/
theorem getTitle_h1_element_witness :
    (∀ pre attrs inner post,
      ¬ ElementAt (js "title") richHeadingContent pre attrs inner post) ∧
    ElementAt (js "h1") richHeadingContent (js "<p>intro</p>") (js " id=top")
      richHeadingInner [] ∧
    (∃ inner stripped, FirstElement (js "h1") richHeadingContent inner ∧
      StripsTo inner stripped ∧
      IsTrimOf (stripped.filter (fun c => c != cHash))
        (getTitle richHeadingContent (js "post.html")) ∧
      cHash ∉ getTitle richHeadingContent (js "post.html")) ∧
    getTitle richHeadingContent (js "post.html") = js "My Post" ∧
    getTitle myPostContent (js "post.html") = js "My Post" ∧
    getTitle (js "<h1>" ++ (9 :: 160 :: js "#a# <i>b</i>#" ++ (12288 :: js "</h1>")))
      (js "post.html") = js "a b" := by
  refine ⟨richHeadingContent_no_title, richHeadingContent_element, ?_, by decide, by decide,
    by decide⟩
  obtain ⟨inner, stripped, h1, -, h3, h4, -, -, h7, -⟩ :=
    getTitle_h1_element richHeadingContent (js "post.html") (js "<p>intro</p>") (js " id=top")
      richHeadingInner [] richHeadingContent_no_title richHeadingContent_element
  exact ⟨inner, stripped, h1, h3, h4, h7⟩

/-- C6: when the content holds neither a `<title>` nor an `<h1>` element, `getTitle`
returns, for every filename, the base name of the filename without its extension
(`path.parse(filename).name`: the last component of the path, less the extension
that runs from its last dot) in which each `-` and each `_` is replaced by one
space and every other code unit is kept: same length, nothing trimmed, no change
of case; for a filename `stem.html` that is `stem` with these replacements. -/
theorem getTitle_filename_fallback (content filename : JsString)
    (hTitle : ∀ pre attrs inner post, ¬ ElementAt (js "title") content pre attrs inner post)
    (hH1 : ∀ pre attrs inner post, ¬ ElementAt (js "h1") content pre attrs inner post) :
    ∃ name, IsNameOf filename name ∧ (∀ n, IsNameOf filename n → n = name) ∧
      name = parseName filename ∧
      getTitle content filename =
        name.map (fun c => if c = cDash ∨ c = cUnderscore then cSpace else c) ∧
      (getTitle content filename).length = name.length ∧
      (∀ stem, IsBasename stem → filename = stem ++ js ".html" →
        getTitle content filename =
          stem.map (fun c => if c = cDash ∨ c = cUnderscore then cSpace else c)) := by
  have hEq := getTitle_of_neither ((tagSearch_eq_none_iff lowerPattern_title).mpr hTitle)
    ((tagSearch_eq_none_iff lowerPattern_h1).mpr hH1) filename
  refine ⟨parseName filename, parseName_isNameOf filename,
    fun n hn => isNameOf_unique hn, rfl, hEq, ?_, ?_⟩
  · rw [hEq]; simp [dashesToSpaces]
  · intro stem hstem hfile
    rw [hEq, hfile, parseName_html_basename hstem]
    rfl

theorem plainContent_no_title (pre attrs inner post : JsString) :
    ¬ ElementAt (js "title") (js "plain text") pre attrs inner post :=
  (tagSearch_eq_none_iff lowerPattern_title).mp (by decide) pre attrs inner post

theorem plainContent_no_h1 (pre attrs inner post : JsString) :
    ¬ ElementAt (js "h1") (js "plain text") pre attrs inner post :=
  (tagSearch_eq_none_iff lowerPattern_h1).mp (by decide) pre attrs inner post

/-- C6, at the filename `my-cool-post.html` with a content without tags: the title
is `my cool post`; at `drafts/My_cool-post.v2.html/` it is `My cool post.v2`, at
`.hidden` it is `.hidden`, and at `/..` it is `.`. -/
theorem getTitle_filename_fallback_witness :
    (∀ pre attrs inner post, ¬ ElementAt (js "title") (js "plain text") pre attrs inner post) ∧
    (∀ pre attrs inner post, ¬ ElementAt (js "h1") (js "plain text") pre attrs inner post) ∧
    (∃ name, IsNameOf (js "my-cool-post.html") name ∧
      getTitle (js "plain text") (js "my-cool-post.html") =
        name.map (fun c => if c = cDash ∨ c = cUnderscore then cSpace else c)) ∧
    getTitle (js "plain text") (js "my-cool-post.html") = js "my cool post" ∧
    getTitle (js "plain text") (js "drafts/My_cool-post.v2.html/") = js "My cool post.v2" ∧
    getTitle (js "plain text") (js ".hidden") = js ".hidden" ∧
    getTitle (js "plain text") (js "/..") = js "." := by
  refine ⟨plainContent_no_title, plainContent_no_h1, ?_, by decide, by decide, by decide,
    by decide⟩
  obtain ⟨name, h1, -, -, h4, -⟩ :=
    getTitle_filename_fallback (js "plain text") (js "my-cool-post.html")
      plainContent_no_title plainContent_no_h1
  exact ⟨name, h1, h4⟩

/-! ### The title of a document is not always non-empty -/

theorem dashesToSpaces_ne_nil {s : JsString} (h : s ≠ []) : dashesToSpaces s ≠ [] := by
  cases s with
  | nil => exact absurd rfl h
  | cons c cs => simp [dashesToSpaces]

/-- C7 (amended): the `title` of every document of a scan result, at any depth, is
`getTitle` of the content and the name of a readable regular file of the tree; it
is not the empty string when the content holds neither a `<title>` nor an `<h1>`
element (the fallback to the name of a `*.html` file is never empty). -/
theorem document_title_nonempty_without_tags
    (t : FsNode) (relativePath n p title : JsString) (hidden : Bool)
    (h : Entry.file n p title hidden ∈ allEntries (scanDirectory t relativePath)) :
    ∃ files child text, InTree t (.dir (some files) child) ∧ n ∈ files ∧
      child n = .file (some text) ∧ title = getTitle text n ∧
      ((∀ pre attrs inner post, ¬ ElementAt (js "title") text pre attrs inner post) →
       (∀ pre attrs inner post, ¬ ElementAt (js "h1") text pre attrs inner post) →
       title ≠ []) := by
  obtain ⟨t', rel', hin, hmem⟩ := allEntries_scanDirectory h
  obtain ⟨files, child, rfl, file, hfile, -, hitem⟩ := mem_scanDirectory_cases hmem
  rcases scanItem_eq_some_iff.mp hitem with ⟨-, hfolder⟩ | ⟨hx, text, hf, hdoc⟩
  · cases hfolder
  · simp only [Entry.file.injEq] at hdoc
    obtain ⟨rfl, -, rfl, -⟩ := hdoc
    refine ⟨files, child, text, hin, hfile, hf, rfl, fun hTitle hH1 => ?_⟩
    rw [getTitle_of_neither ((tagSearch_eq_none_iff lowerPattern_title).mpr hTitle)
      ((tagSearch_eq_none_iff lowerPattern_h1).mpr hH1)]
    obtain ⟨stem, rfl⟩ := endsWith_html hx
    exact dashesToSpaces_ne_nil (parseName_html_ne_nil stem)

/-- C7 (amended), at a content root holding `a.html` with an empty content: the
title is taken from the name and is not empty. -/
theorem document_title_nonempty_without_tags_witness :
    Entry.file (js "a.html") (js "posts/a.html") (js "a") false ∈
      allEntries (scanDirectory flatTree (js "posts")) ∧
    ∃ files child text, InTree flatTree (.dir (some files) child) ∧ js "a.html" ∈ files ∧
      child (js "a.html") = .file (some text) ∧ js "a" = getTitle text (js "a.html") ∧
      ((∀ pre attrs inner post, ¬ ElementAt (js "title") text pre attrs inner post) →
       (∀ pre attrs inner post, ¬ ElementAt (js "h1") text pre attrs inner post) →
       js "a" ≠ []) :=
  ⟨List.mem_singleton.mpr rfl,
   document_title_nonempty_without_tags flatTree (js "posts") (js "a.html") (js "posts/a.html")
     (js "a") false (List.mem_singleton.mpr rfl)⟩

/-- C7, refuted as stated: the document `a.html`, whose content starts with an empty
`<title>` element, is emitted with the empty string as `title`. -/
theorem document_with_empty_title :
    scanDirectory emptyTitleTree (js "posts") =
      [Entry.file (js "a.html") (js "posts/a.html") [] false] ∧
    getTitle (js "<title></title><h1>Heading</h1>") (js "a.html") = [] :=
  ⟨rfl, by decide⟩

end BuildNav
